import Mathlib

/-!
# Verification of the multi-camera frame extraction engine

Shallow embedding of the concurrent extraction/synchronization engine of
this repository (`src/frame_extractor.cpp`, `include/frame_batch.hpp`-style
header holding `BlockingQueue` and `FrameBatch`).

Modelling conventions:
* `cv::Mat` frame payloads are opaque data; we model a payload as a `Nat`
  (an end-of-stream packet carries the empty `cv::Mat`, modelled as `0`,
  never read).
* `double` frame rates and timestamps are modelled as exact rationals `ℚ`;
  the only operations performed on them by the code are the comparison
  `fps > 0.0` and the division `frame_index / fps`, which have no
  rounding subtleties relevant to the claims.
* `std::map` (used for the reorder buffer, the per-row camera map and the
  per-camera EOF map) is modelled as a key-sorted association list
  `List (Nat × β)`; `emplace` inserts only when the key is absent,
  `operator[]` assigns.
* The packet channel delivers packets in push order (FIFO); a run of the
  parallel engine is parametrised by a schedule `σ : List Nat` choosing,
  at each step, which reader's next packet is appended to the channel.
  The shared stop flag is stored by the assembler only after every reader
  has already pushed its terminal packet and exited its loop (the code
  stores it when `finished_cams == total_cams`, i.e. after popping —
  hence after the push of — every terminal packet), so no reader ever
  observes the flag while it still has frames to read; each reader
  therefore delivers its whole stream, which the reader model reflects.
-/

/-! ## Association lists modelling `std::map` -/

/-- Lookup in an association list (`std::map::find`). -/
def mapFind? (k : Nat) : List (Nat × β) → Option β
  | [] => none
  | p :: l => if p.1 = k then some p.2 else mapFind? k l

/-- Key-sorted insert-or-assign (`std::map::operator[] =`). -/
def mapAssign (k : Nat) (v : β) : List (Nat × β) → List (Nat × β)
  | [] => [(k, v)]
  | p :: l =>
    if k < p.1 then (k, v) :: p :: l
    else if k = p.1 then (k, v) :: l
    else p :: mapAssign k v l

/-- Key-sorted insert-if-absent (`std::map::emplace`). -/
def mapEmplace (k : Nat) (v : β) : List (Nat × β) → List (Nat × β)
  | [] => [(k, v)]
  | p :: l =>
    if k < p.1 then (k, v) :: p :: l
    else if k = p.1 then p :: l
    else p :: mapEmplace k v l

/-- Remove the entry with key `k`, if present (`std::map::erase`). -/
def mapErase (k : Nat) : List (Nat × β) → List (Nat × β)
  | [] => []
  | p :: l => if p.1 = k then l else p :: mapErase k l

/-- Strictly increasing keys: the canonical shape of a `std::map`. -/
abbrev KeySorted (l : List (Nat × β)) : Prop :=
  List.Pairwise (fun p q => p.1 < q.1) l

/-- The canonical `std::map` holding exactly the pairs of `l`
(meaningful when the keys of `l` are distinct). -/
def sortPairs (l : List (Nat × Nat)) : List (Nat × Nat) :=
  l.insertionSort (fun p q => p.1 ≤ q.1)

/-! ## `BlockingQueue<T>` (the closable channel)

State of the channel as observed under its mutex: the queued items in FIFO
order and the closed bit.  `pop` blocks until an item is available or the
channel is closed; a blocked `pop` is modelled by `popStep` returning
`none` (no transition), while a completed `pop` returns the popped
`Option` value and the successor state. -/

structure BlockingQueue (α : Type) where
  items : List α
  closed : Bool
deriving DecidableEq, Repr

namespace BlockingQueue

/-- `push(value)`: no-op when closed, otherwise enqueue at the back. -/
def push (q : BlockingQueue α) (v : α) : BlockingQueue α :=
  if q.closed then q else { q with items := q.items ++ [v] }

/-- `close()`: set the closed bit. -/
def close (q : BlockingQueue α) : BlockingQueue α :=
  { q with closed := true }

/-- One `pop()` call: `none` means the caller blocks (queue open and
empty); `some (r, q')` means the call returns `r` leaving state `q'`. -/
def popStep (q : BlockingQueue α) : Option (Option α × BlockingQueue α) :=
  match q.items with
  | v :: rest => some (some v, { q with items := rest })
  | [] => if q.closed then some (none, q) else none

/-- Push a whole list, in order. -/
def pushAll (q : BlockingQueue α) (l : List α) : BlockingQueue α :=
  l.foldl push q

/-- Repeatedly `pop` a closed (or soon-absent) channel until exhausted:
the values successfully returned. -/
def popAll : BlockingQueue α → List α
  | ⟨[], _⟩ => []
  | ⟨v :: rest, c⟩ => v :: popAll ⟨rest, c⟩

end BlockingQueue

/-! ## Packets, batches, streams -/

/-- `FramePacket`: unit of transfer from a reader to the assembler. -/
structure FramePacket where
  cam_id : Nat
  frame_index : Nat
  frame : Nat
  eof : Bool
deriving DecidableEq, Repr

/-- `FrameBatch`: one synchronized set of frames at a single index. -/
structure FrameBatch where
  frame_index : Nat
  timestamp : ℚ
  frames : List (Nat × Nat)
deriving DecidableEq, Repr

/-- `VideoStream` after `collect_streams`: camera id, native frame rate
and the finite deterministic sequence of frames `cap->read` will yield
before failing. -/
structure VideoStream where
  cam_id : Nat
  fps : ℚ
  frames : List Nat
deriving DecidableEq, Repr

/-- A candidate file seen by `collect_streams`' directory scan: its parsed
camera id, whether `cv::VideoCapture::isOpened()` succeeds, and the fps
and frame content behind it. -/
structure StreamEntry where
  cam_id : Nat
  opens : Bool
  fps : ℚ
  frames : List Nat
deriving DecidableEq, Repr

/-- `collect_streams`: keep only entries whose capture opens (an entry
that fails to open is skipped with a log line), then sort by camera id.
Directory traversal, extension filtering and camera-id parsing are
abstracted into the incoming entry list. -/
def collect_streams (entries : List StreamEntry) : List VideoStream :=
  ((entries.filter (·.opens)).map
      (fun e => VideoStream.mk e.cam_id e.fps e.frames)).insertionSort
    (fun s t => s.cam_id ≤ t.cam_id)

/-- `reader_worker`'s pushes: while the stop flag is unobserved
(`stopAfter` counts the loop iterations that see it unset) read the next
frame; on success push a non-terminal packet and advance `frame_index`;
on read failure leave the loop.  After the loop push exactly one
terminal packet carrying the current `frame_index`. -/
def reader_worker (cam : Nat) (frame_index : Nat) :
    List Nat → Nat → List FramePacket
  | _, 0 => [⟨cam, frame_index, 0, true⟩]
  | [], _ + 1 => [⟨cam, frame_index, 0, true⟩]
  | f :: rest, stopAfter + 1 =>
    ⟨cam, frame_index, f, false⟩ :: reader_worker cam (frame_index + 1) rest stopAfter

/-- The packet sequence a reader pushes in a real run of the parallel
engine: the stop flag is set only after every reader has pushed its
terminal packet (see the header comment), so every reader runs to
exhaustion of its stream. -/
def readerSeqs (streams : List VideoStream) : List (List FramePacket) :=
  streams.map (fun st => reader_worker st.cam_id 0 st.frames st.frames.length)

/-! ## The parallel engine (`extract_frames_parallel`) -/

/-- Assembler state (the locals of `extract_frames_parallel`).
`first_eof_frame_index` is the C++ `int` sentinel `-1` rendered as
`Option`.  `discarded` is a ghost counter incremented exactly when the
straggler-discard branch (`frame_index >= eof_it->second`, non-terminal
packet skipped) executes; it touches nothing else. -/
structure AsmState where
  frame_buffer : List (Nat × List (Nat × Nat))
  finished_cams : Nat
  next_batch_index : Nat
  first_eof_frame_index : Option Nat
  cam_eof_indices : List (Nat × Nat)
  stop_flag : Bool
  discarded : Nat
  output : List FrameBatch
deriving DecidableEq, Repr

/-- Timestamp formula used at both emission sites:
`reference_fps > 0.0 ? index / reference_fps : 0.0`. -/
def tsOf (ref : ℚ) (idx : Nat) : ℚ :=
  if 0 < ref then (idx : ℚ) / ref else 0

/-- `reference_fps`: the first positive fps among the streams, else 0. -/
def referenceFps : List ℚ → ℚ
  | [] => 0
  | f :: rest => if 0 < f then f else referenceFps rest

/-- `frame_buffer[packet.frame_index].emplace(packet.cam_id, frame)`:
`operator[]` creates the row if absent, then `emplace` adds the camera
if absent. -/
def bufAdd (idx cam f : Nat) (buf : List (Nat × List (Nat × Nat))) :
    List (Nat × List (Nat × Nat)) :=
  mapAssign idx (mapEmplace cam f ((mapFind? idx buf).getD [])) buf

/-- Body of the `try_output_complete_batches` loop, with explicit fuel
(the loop erases one buffer entry per iteration, so any fuel above the
buffer size is enough; the wrapper below supplies it). -/
def try_output_complete_batchesF (total : Nat) (ref : ℚ) :
    Nat → AsmState → AsmState
  | 0, s => s
  | fuel + 1, s =>
    if (match s.first_eof_frame_index with
        | some e => decide (e ≤ s.next_batch_index)
        | none => false) then s
    else
      match mapFind? s.next_batch_index s.frame_buffer with
      | none => s
      | some row =>
        if row.length = total then
          try_output_complete_batchesF total ref fuel
            { s with
              frame_buffer := mapErase s.next_batch_index s.frame_buffer,
              next_batch_index := s.next_batch_index + 1,
              output := s.output ++
                [⟨s.next_batch_index, tsOf ref s.next_batch_index, row⟩] }
        else s

/-- `try_output_complete_batches`: emit, in order, every already-complete
batch not barred by `first_eof_frame_index`. -/
def try_output_complete_batches (total : Nat) (ref : ℚ) (s : AsmState) :
    AsmState :=
  try_output_complete_batchesF total ref (s.frame_buffer.length + 1) s

/-- Processing of one popped packet by the assembler main loop. -/
def processPacket (total : Nat) (ref : ℚ) (s : AsmState) (p : FramePacket) :
    AsmState :=
  if p.eof then
    try_output_complete_batches total ref
      { s with
        cam_eof_indices := mapAssign p.cam_id p.frame_index s.cam_eof_indices,
        finished_cams := s.finished_cams + 1,
        first_eof_frame_index :=
          some (match s.first_eof_frame_index with
                | none => p.frame_index
                | some e => min e p.frame_index),
        stop_flag :=
          if s.finished_cams + 1 = total then true else s.stop_flag }
  else
    match mapFind? p.cam_id s.cam_eof_indices with
    | some e =>
      if e ≤ p.frame_index then { s with discarded := s.discarded + 1 }
      else
        try_output_complete_batches total ref
          { s with frame_buffer := bufAdd p.frame_index p.cam_id p.frame s.frame_buffer }
    | none =>
      try_output_complete_batches total ref
        { s with frame_buffer := bufAdd p.frame_index p.cam_id p.frame s.frame_buffer }

/-- The main consumption loop `while (finished_cams < total_cams)`,
popping from the given FIFO packet sequence; returns the final state and
the packets left unconsumed in the channel. -/
def runLoop (total : Nat) (ref : ℚ) :
    AsmState → List FramePacket → AsmState × List FramePacket
  | s, [] => (s, [])
  | s, p :: ps =>
    if s.finished_cams < total then runLoop total ref (processPacket total ref s p) ps
    else (s, p :: ps)

/-- The post-close drain loop: pop everything still queued, skip terminal
packets, apply the same discard rule, buffer and re-drain. -/
def drainLoop (total : Nat) (ref : ℚ) :
    AsmState → List FramePacket → AsmState
  | s, [] => s
  | s, p :: ps =>
    if p.eof then drainLoop total ref s ps
    else
      match mapFind? p.cam_id s.cam_eof_indices with
      | some e =>
        if e ≤ p.frame_index then
          drainLoop total ref { s with discarded := s.discarded + 1 } ps
        else
          drainLoop total ref
            (try_output_complete_batches total ref
              { s with frame_buffer := bufAdd p.frame_index p.cam_id p.frame s.frame_buffer }) ps
      | none =>
        drainLoop total ref
          (try_output_complete_batches total ref
            { s with frame_buffer := bufAdd p.frame_index p.cam_id p.frame s.frame_buffer }) ps

/-- The channel contents produced by interleaving the readers' pushes
under schedule `σ`: at each step, schedule entry `i` appends reader `i`'s
next unpushed packet (steps naming an exhausted or absent reader push
nothing). -/
def runSchedule : List (List FramePacket) → List Nat → List FramePacket
  | _, [] => []
  | seqs, i :: σ =>
    match seqs.getD i [] with
    | [] => runSchedule seqs σ
    | p :: rest => p :: runSchedule (seqs.set i rest) σ

/-- Packets each reader still has to push after schedule `σ`. -/
def remAfter : List (List FramePacket) → List Nat → List (List FramePacket)
  | seqs, [] => seqs
  | seqs, i :: σ =>
    match seqs.getD i [] with
    | [] => remAfter seqs σ
    | _ :: rest => remAfter (seqs.set i rest) σ

/-- A schedule under which every reader gets to push all its packets. -/
def CompleteSchedule (seqs : List (List FramePacket)) (σ : List Nat) : Prop :=
  ∀ l ∈ remAfter seqs σ, l = []

instance (seqs : List (List FramePacket)) (σ : List Nat) :
    Decidable (CompleteSchedule seqs σ) :=
  List.decidableBAll _ _

/-- Initial assembler state. -/
def initState : AsmState := ⟨[], 0, 0, none, [], false, 0, []⟩

/-- Full run of `extract_frames_parallel` after `collect_streams`, on the
channel contents of schedule `σ`: the main loop, then
`stop_flag.store(true)`, join, close, the drain loop over whatever was
left in the channel, and one final `try_output_complete_batches`;
returns the final assembler state (`output` holds everything pushed to
the output queue, in order, before it is closed). -/
def engineRun (streams : List VideoStream) (σ : List Nat) : AsmState :=
  let total := streams.length
  let ref := referenceFps (streams.map (·.fps))
  let r := runLoop total ref initState (runSchedule (readerSeqs streams) σ)
  let s2 := drainLoop total ref { r.1 with stop_flag := true } r.2
  try_output_complete_batches total ref s2

/-- `extract_frames_parallel`: the sequence of batches pushed to the
output queue.  An empty stream list closes the output immediately. -/
def extract_frames_parallel (streams : List VideoStream) (σ : List Nat) :
    List FrameBatch :=
  if streams.isEmpty then [] else (engineRun streams σ).output

/-! ## The single-threaded reference extractor (`extract_frames_single`) -/

/-- Body of the lock-step loop, with explicit fuel (each iteration pops
one frame from every stream, so any fuel above the shortest stream
length is enough; the wrapper supplies it).  One iteration: build the
batch header, read one frame from every stream in order — the first
failed read sets `stop` and discards the partial batch — else push the
batch and advance. -/
def singleLoopF (fps0 : ℚ) : Nat → List (Nat × List Nat) → Nat → List FrameBatch
  | 0, _, _ => []
  | fuel + 1, cams, idx =>
    if cams.all (fun p => !p.2.isEmpty) then
      ⟨idx, tsOf fps0 idx, sortPairs (cams.map (fun p => (p.1, p.2.headD 0)))⟩ ::
        singleLoopF fps0 fuel (cams.map (fun p => (p.1, p.2.tail))) (idx + 1)
    else []

/-- `extract_frames_single` on collected streams: lock-step reading, one
batch per index, stopping at the first stream to run out; timestamps are
derived from the fps of the first stream (`streams.front().fps`). -/
def extract_frames_single (streams : List VideoStream) : List FrameBatch :=
  match streams with
  | [] => []
  | st0 :: _ =>
    singleLoopF st0.fps
      ((streams.map (fun st => st.frames.length)).foldr (· + ·) 0 + 1)
      (streams.map (fun st => (st.cam_id, st.frames))) 0

/-! ## Toolkit: association-list lemmas -/

theorem mapFind?_eq_none_iff {β : Type} {k : Nat} {l : List (Nat × β)} :
    mapFind? k l = none ↔ k ∉ l.map Prod.fst := by
  induction l with
  | nil => simp [mapFind?]
  | cons p l ih =>
    simp only [mapFind?, List.map_cons, List.mem_cons]
    by_cases h : p.1 = k
    · simp [h]
    · have hk : ¬ k = p.1 := fun he => h he.symm
      simp [h, hk, ih]

theorem mapFind?_eq_some_of_mem {β : Type} {k : Nat} {v : β} {l : List (Nat × β)}
    (hnd : (l.map Prod.fst).Nodup) (hm : (k, v) ∈ l) :
    mapFind? k l = some v := by
  induction l with
  | nil => simp at hm
  | cons p l ih =>
    simp only [List.map_cons, List.nodup_cons] at hnd
    rcases List.mem_cons.1 hm with h | h
    · subst h; simp [mapFind?]
    · have hk : p.1 ≠ k := by
        intro he
        exact hnd.1 (he ▸ (List.mem_map.2 ⟨(k, v), h, rfl⟩))
      simp [mapFind?, hk, ih hnd.2 h]

theorem mem_of_mapFind?_eq_some {β : Type} {k : Nat} {v : β} {l : List (Nat × β)}
    (h : mapFind? k l = some v) : (k, v) ∈ l := by
  induction l with
  | nil => simp [mapFind?] at h
  | cons p l ih =>
    by_cases hk : p.1 = k
    · simp only [mapFind?, hk, if_pos] at h
      cases h
      exact hk ▸ List.mem_cons_self p l
    · simp only [mapFind?, hk, if_neg, if_false] at h
      exact List.mem_cons_of_mem _ (ih h)

theorem KeySorted.nodupKeys {β : Type} {l : List (Nat × β)} (h : KeySorted l) :
    (l.map Prod.fst).Nodup := by
  simpa [List.Nodup, List.pairwise_map] using
    h.imp (fun hlt => Nat.ne_of_lt hlt)

theorem mapFind?_eq_some_iff {β : Type} {k : Nat} {v : β} {l : List (Nat × β)}
    (hnd : (l.map Prod.fst).Nodup) :
    mapFind? k l = some v ↔ (k, v) ∈ l :=
  ⟨mem_of_mapFind?_eq_some, mapFind?_eq_some_of_mem hnd⟩

theorem keySorted_ext {β : Type} {l₁ l₂ : List (Nat × β)}
    (h₁ : KeySorted l₁) (h₂ : KeySorted l₂)
    (h : ∀ k, mapFind? k l₁ = mapFind? k l₂) : l₁ = l₂ := by
  induction l₁ generalizing l₂ with
  | nil =>
    cases l₂ with
    | nil => rfl
    | cons q t₂ =>
      have := h q.1
      simp [mapFind?] at this
  | cons p t₁ ih =>
    cases l₂ with
    | nil =>
      have := h p.1
      simp [mapFind?] at this
    | cons q t₂ =>
      rcases p with ⟨kp, vp⟩
      rcases q with ⟨kq, vq⟩
      have hkey : kp = kq := by
        by_contra hne
        rcases Nat.lt_or_ge kp kq with hlt | hge
        · have h1 := h kp
          have hq : kq ≠ kp := by omega
          rw [show mapFind? kp ((kp, vp) :: t₁) = some vp by simp [mapFind?],
              show mapFind? kp ((kq, vq) :: t₂) = mapFind? kp t₂ by
                simp [mapFind?, hq]] at h1
          have hmem := mem_of_mapFind?_eq_some h1.symm
          have hgt := (List.pairwise_cons.1 h₂).1 _ hmem
          simp at hgt
          omega
        · have hlt : kq < kp := by omega
          have h1 := h kq
          have hp : kp ≠ kq := by omega
          rw [show mapFind? kq ((kq, vq) :: t₂) = some vq by simp [mapFind?],
              show mapFind? kq ((kp, vp) :: t₁) = mapFind? kq t₁ by
                simp [mapFind?, hp]] at h1
          have hmem := mem_of_mapFind?_eq_some h1
          have hgt := (List.pairwise_cons.1 h₁).1 _ hmem
          simp at hgt
          omega
      subst hkey
      have hv : vp = vq := by
        have h1 := h kp
        simp [mapFind?] at h1
        exact h1
      subst hv
      have htail : t₁ = t₂ := by
        refine ih (List.pairwise_cons.1 h₁).2 (List.pairwise_cons.1 h₂).2 ?_
        intro k
        by_cases hk : k = kp
        · subst hk
          have hn₁ : mapFind? k t₁ = none := by
            rw [mapFind?_eq_none_iff]
            intro hmem
            rcases List.mem_map.1 hmem with ⟨r, hr, hrk⟩
            have := (List.pairwise_cons.1 h₁).1 _ hr
            omega
          have hn₂ : mapFind? k t₂ = none := by
            rw [mapFind?_eq_none_iff]
            intro hmem
            rcases List.mem_map.1 hmem with ⟨r, hr, hrk⟩
            have := (List.pairwise_cons.1 h₂).1 _ hr
            omega
          rw [hn₁, hn₂]
        · have h1 := h k
          have hk' : kp ≠ k := fun he => hk he.symm
          simpa [mapFind?, hk'] using h1
      rw [htail]

theorem mapFind?_mapAssign {β : Type} (k k' : Nat) (v : β) (l : List (Nat × β)) :
    mapFind? k' (mapAssign k v l) =
      if k' = k then some v else mapFind? k' l := by
  induction l with
  | nil =>
    simp only [mapAssign, mapFind?]
    by_cases h : k = k'
    · subst h; simp
    · have h' : ¬ k' = k := fun hh => h hh.symm
      simp [h, h']
  | cons p l ih =>
    by_cases h1 : k < p.1
    · simp only [mapAssign, if_pos h1, mapFind?]
      by_cases h : k = k'
      · subst h; simp
      · have h' : ¬ k' = k := fun hh => h hh.symm
        simp [h, h']
    · by_cases h2 : k = p.1
      · simp only [mapAssign, if_neg h1, if_pos h2, mapFind?]
        by_cases h : k = k'
        · subst h; simp
        · have h' : ¬ k' = k := fun hh => h hh.symm
          have hp : ¬ p.1 = k' := by omega
          simp [h, h', hp]
      · simp only [mapAssign, if_neg h1, if_neg h2, mapFind?, ih]
        by_cases hp : p.1 = k'
        · have h' : ¬ k' = k := by omega
          simp [hp, h']
        · simp [hp]

theorem mapFind?_mapEmplace {β : Type} (k k' : Nat) (v : β) {l : List (Nat × β)}
    (hs : KeySorted l) :
    mapFind? k' (mapEmplace k v l) =
      if k' = k then some ((mapFind? k l).getD v) else mapFind? k' l := by
  induction l with
  | nil =>
    simp only [mapEmplace, mapFind?]
    by_cases h : k = k'
    · subst h; simp
    · have h' : ¬ k' = k := fun hh => h hh.symm
      simp [h, h']
  | cons p l ih =>
    have hs' := (List.pairwise_cons.1 hs).2
    by_cases h1 : k < p.1
    · have hnone : mapFind? k l = none := by
        rw [mapFind?_eq_none_iff]
        intro hm
        rcases List.mem_map.1 hm with ⟨r, hr, hrk⟩
        have := (List.pairwise_cons.1 hs).1 _ hr
        omega
      have hpk : ¬ p.1 = k := by omega
      simp only [mapEmplace, if_pos h1, mapFind?]
      by_cases h : k = k'
      · subst h; simp [hpk, hnone]
      · have h' : ¬ k' = k := fun hh => h hh.symm
        simp [h, h']
    · by_cases h2 : k = p.1
      · simp only [mapEmplace, if_neg h1, if_pos h2, mapFind?]
        by_cases h : k = k'
        · subst h; simp [h2.symm]
        · have h' : ¬ k' = k := fun hh => h hh.symm
          simp [h, h']
      · have hpk : ¬ p.1 = k := fun hh => h2 hh.symm
        simp only [mapEmplace, if_neg h1, if_neg h2, mapFind?, ih hs', hpk]
        by_cases hp : p.1 = k'
        · have h' : ¬ k' = k := by omega
          simp [hp, h']
        · simp [hp]

theorem mapFind?_mapErase {β : Type} (k k' : Nat) {l : List (Nat × β)}
    (hs : KeySorted l) :
    mapFind? k' (mapErase k l) =
      if k' = k then none else mapFind? k' l := by
  induction l with
  | nil =>
    simp only [mapErase, mapFind?]
    by_cases h : k' = k <;> simp [h]
  | cons p l ih =>
    have hs' := (List.pairwise_cons.1 hs).2
    by_cases h1 : p.1 = k
    · have hnone : mapFind? k l = none := by
        rw [mapFind?_eq_none_iff]
        intro hm
        rcases List.mem_map.1 hm with ⟨r, hr, hrk⟩
        have := (List.pairwise_cons.1 hs).1 _ hr
        omega
      simp only [mapErase, if_pos h1, mapFind?]
      by_cases h : k' = k
      · subst h; simp [hnone]
      · have hp : ¬ p.1 = k' := by omega
        simp [h, hp]
    · simp only [mapErase, if_neg h1, mapFind?, ih hs']
      by_cases hp : p.1 = k'
      · have h' : ¬ k' = k := by omega
        simp [hp, h']
      · simp [hp]

theorem mem_mapAssign {β : Type} {k : Nat} {v : β} {l : List (Nat × β)} {q : Nat × β}
    (hq : q ∈ mapAssign k v l) : q = (k, v) ∨ q ∈ l := by
  induction l with
  | nil => simpa [mapAssign] using hq
  | cons p l ih =>
    by_cases h1 : k < p.1
    · simp only [mapAssign, if_pos h1, List.mem_cons] at hq
      rcases hq with a | a | a
      · left; exact a
      · right; exact List.mem_cons.2 (Or.inl a)
      · right; exact List.mem_cons.2 (Or.inr a)
    · by_cases h2 : k = p.1
      · simp only [mapAssign, if_neg h1, if_pos h2, List.mem_cons] at hq
        rcases hq with a | a
        · left; exact a
        · right; exact List.mem_cons.2 (Or.inr a)
      · simp only [mapAssign, if_neg h1, if_neg h2, List.mem_cons] at hq
        rcases hq with a | a
        · right; exact List.mem_cons.2 (Or.inl a)
        · rcases ih a with b | b
          · left; exact b
          · right; exact List.mem_cons.2 (Or.inr b)

theorem mem_mapEmplace {β : Type} {k : Nat} {v : β} {l : List (Nat × β)} {q : Nat × β}
    (hq : q ∈ mapEmplace k v l) : q = (k, v) ∨ q ∈ l := by
  induction l with
  | nil => simpa [mapEmplace] using hq
  | cons p l ih =>
    by_cases h1 : k < p.1
    · simp only [mapEmplace, if_pos h1, List.mem_cons] at hq
      rcases hq with a | a | a
      · left; exact a
      · right; exact List.mem_cons.2 (Or.inl a)
      · right; exact List.mem_cons.2 (Or.inr a)
    · by_cases h2 : k = p.1
      · simp only [mapEmplace, if_neg h1, if_pos h2] at hq
        right; exact hq
      · simp only [mapEmplace, if_neg h1, if_neg h2, List.mem_cons] at hq
        rcases hq with a | a
        · right; exact List.mem_cons.2 (Or.inl a)
        · rcases ih a with b | b
          · left; exact b
          · right; exact List.mem_cons.2 (Or.inr b)

theorem keySorted_mapAssign {β : Type} (k : Nat) (v : β) {l : List (Nat × β)}
    (hs : KeySorted l) : KeySorted (mapAssign k v l) := by
  induction l with
  | nil => simp [mapAssign]
  | cons p l ih =>
    rcases List.pairwise_cons.1 hs with ⟨hhead, htail⟩
    by_cases h1 : k < p.1
    · simp only [mapAssign, if_pos h1]
      refine List.pairwise_cons.2 ⟨?_, hs⟩
      intro q hq
      rcases List.mem_cons.1 hq with he | ht
      · subst he; exact h1
      · have := hhead _ ht
        simp only
        omega
    · by_cases h2 : k = p.1
      · simp only [mapAssign, if_neg h1, if_pos h2]
        refine List.pairwise_cons.2 ⟨?_, htail⟩
        intro q hq
        have := hhead _ hq
        simp only
        omega
      · simp only [mapAssign, if_neg h1, if_neg h2]
        refine List.pairwise_cons.2 ⟨?_, ih htail⟩
        intro q hq
        rcases mem_mapAssign hq with he | hm
        · subst he
          simp only
          omega
        · exact hhead _ hm

theorem keySorted_mapEmplace {β : Type} (k : Nat) (v : β) {l : List (Nat × β)}
    (hs : KeySorted l) : KeySorted (mapEmplace k v l) := by
  induction l with
  | nil => simp [mapEmplace]
  | cons p l ih =>
    rcases List.pairwise_cons.1 hs with ⟨hhead, htail⟩
    by_cases h1 : k < p.1
    · simp only [mapEmplace, if_pos h1]
      refine List.pairwise_cons.2 ⟨?_, hs⟩
      intro q hq
      rcases List.mem_cons.1 hq with he | ht
      · subst he; exact h1
      · have := hhead _ ht
        simp only
        omega
    · by_cases h2 : k = p.1
      · simpa only [mapEmplace, if_neg h1, if_pos h2] using hs
      · simp only [mapEmplace, if_neg h1, if_neg h2]
        refine List.pairwise_cons.2 ⟨?_, ih htail⟩
        intro q hq
        rcases mem_mapEmplace hq with he | hm
        · subst he
          simp only
          omega
        · exact hhead _ hm

theorem keySorted_mapErase {β : Type} (k : Nat) {l : List (Nat × β)}
    (hs : KeySorted l) : KeySorted (mapErase k l) := by
  induction l with
  | nil => simp [mapErase]
  | cons p l ih =>
    rcases List.pairwise_cons.1 hs with ⟨hhead, htail⟩
    by_cases h1 : p.1 = k
    · simpa only [mapErase, if_pos h1] using htail
    · simp only [mapErase, if_neg h1]
      refine List.pairwise_cons.2 ⟨?_, ih htail⟩
      intro q hq
      have hsub : List.Sublist (mapErase k l) l := by
        clear hq hhead ih htail hs
        induction l with
        | nil => simp [mapErase]
        | cons r t iht =>
          by_cases hr : r.1 = k
          · simpa only [mapErase, if_pos hr] using (List.sublist_cons_self r t)
          · simp only [mapErase, if_neg hr]
            exact List.Sublist.cons₂ r iht
      exact hhead _ (hsub.mem hq)

instance : IsTotal (Nat × Nat) (fun p q => p.1 ≤ q.1) :=
  ⟨fun a b => Nat.le_total a.1 b.1⟩

instance : IsTrans (Nat × Nat) (fun p q => p.1 ≤ q.1) :=
  ⟨fun _ _ _ h1 h2 => Nat.le_trans h1 h2⟩

theorem sortPairs_perm (l : List (Nat × Nat)) : List.Perm (sortPairs l) l :=
  List.perm_insertionSort _ l

theorem mem_sortPairs {l : List (Nat × Nat)} {x : Nat × Nat} :
    x ∈ sortPairs l ↔ x ∈ l :=
  (sortPairs_perm l).mem_iff

theorem keySorted_sortPairs {l : List (Nat × Nat)}
    (hnd : (l.map Prod.fst).Nodup) : KeySorted (sortPairs l) := by
  have hsorted : (sortPairs l).Sorted (fun p q => p.1 ≤ q.1) :=
    List.sorted_insertionSort _ l
  have hnd2 : ((sortPairs l).map Prod.fst).Nodup :=
    (((sortPairs_perm l).map Prod.fst).nodup_iff).2 hnd
  have hne : (sortPairs l).Pairwise (fun p q => p.1 ≠ q.1) := by
    have := List.pairwise_map.1 hnd2
    exact this
  exact (hsorted.and hne).imp (fun h => Nat.lt_of_le_of_ne h.1 h.2)

theorem mapFind?_sortPairs {l : List (Nat × Nat)}
    (hnd : (l.map Prod.fst).Nodup) (k : Nat) :
    mapFind? k (sortPairs l) = mapFind? k l := by
  have hperm := sortPairs_perm l
  have hnd2 : ((sortPairs l).map Prod.fst).Nodup :=
    ((hperm.map Prod.fst).nodup_iff).2 hnd
  cases h : mapFind? k l with
  | none =>
    rw [mapFind?_eq_none_iff] at h ⊢
    intro hm
    exact h ((hperm.map Prod.fst).mem_iff.1 hm)
  | some v =>
    exact mapFind?_eq_some_of_mem hnd2 (hperm.mem_iff.2 (mem_of_mapFind?_eq_some h))

/-! ## Toolkit: option-valued minimum over a list -/

/-- `minNat? l` is the minimum of `l`, `none` for the empty list. -/
def minNat? : List Nat → Option Nat
  | [] => none
  | a :: l => some ((minNat? l).elim a (fun m => min a m))

theorem minNat?_cons (a : Nat) (l : List Nat) :
    minNat? (a :: l) = some ((minNat? l).elim a (fun m => min a m)) := rfl

theorem minNat?_eq_none_iff {l : List Nat} : minNat? l = none ↔ l = [] := by
  cases l <;> simp [minNat?]

theorem minNat?_le {l : List Nat} {m : Nat} (h : minNat? l = some m) :
    ∀ x ∈ l, m ≤ x := by
  induction l generalizing m with
  | nil => simp [minNat?] at h
  | cons a l ih =>
    intro x hx
    rw [minNat?_cons] at h
    cases hl : minNat? l with
    | none =>
      have he : l = [] := minNat?_eq_none_iff.1 hl
      subst he
      simp [minNat?] at h
      simp at hx
      omega
    | some n =>
      rw [hl] at h
      simp at h
      rcases List.mem_cons.1 hx with he | hm
      · omega
      · have := ih hl x hm
        omega

theorem minNat?_mem {l : List Nat} {m : Nat} (h : minNat? l = some m) : m ∈ l := by
  induction l generalizing m with
  | nil => simp [minNat?] at h
  | cons a l ih =>
    rw [minNat?_cons] at h
    cases hl : minNat? l with
    | none =>
      rw [hl] at h
      simp at h
      subst h
      exact List.mem_cons_self _ _
    | some n =>
      rw [hl] at h
      simp at h
      rcases Nat.le_total a n with hle | hle
      · rw [← h, Nat.min_eq_left hle]
        exact List.mem_cons_self _ _
      · rw [← h, Nat.min_eq_right hle]
        exact List.mem_cons_of_mem _ (ih hl)

theorem lt_minNat?_iff {l : List Nat} {m k : Nat} (h : minNat? l = some m) :
    k < m ↔ ∀ x ∈ l, k < x := by
  constructor
  · intro hk x hx
    exact Nat.lt_of_lt_of_le hk (minNat?_le h x hx)
  · intro hall
    exact hall m (minNat?_mem h)

theorem minNat?_append (l₁ l₂ : List Nat) :
    minNat? (l₁ ++ l₂) =
      match minNat? l₁, minNat? l₂ with
      | none, o => o
      | some m, none => some m
      | some m, some n => some (min m n) := by
  induction l₁ with
  | nil => rfl
  | cons a l ih =>
    rw [List.cons_append, minNat?_cons, ih, minNat?_cons]
    cases h1 : minNat? l with
    | none =>
      cases h2 : minNat? l₂ with
      | none => rfl
      | some n => rfl
    | some m =>
      cases h2 : minNat? l₂ with
      | none => rfl
      | some n => simp [Nat.min_assoc]

/-- Maximum of a list of naturals, 0 for the empty list. -/
def maxNat (l : List Nat) : Nat := l.foldr max 0

theorem le_maxNat {l : List Nat} {x : Nat} (h : x ∈ l) : x ≤ maxNat l := by
  induction l with
  | nil => simp at h
  | cons a l ih =>
    rcases List.mem_cons.1 h with he | hm
    · subst he; exact Nat.le_max_left _ _
    · exact Nat.le_trans (ih hm) (Nat.le_max_right _ _)

/-! ## Canonical assembler states

A run of the engine is tracked by the list `cs` pairing each stream with
the number of its packets the assembler has consumed so far (between `0`
and stream length + 1, the `+ 1` being the terminal packet).  The
assembler state reached after consuming any interleaving of those
packets is a function `stateOf` of `cs` alone — the heart of every
ordering/determinism claim. -/

/-- Frames of `p` delivered so far (consumed count capped at length). -/
def dOf (p : VideoStream × Nat) : Nat := min p.2 p.1.frames.length

/-- Packets of `p` not yet consumed. -/
def remOf (p : VideoStream × Nat) : List FramePacket :=
  (reader_worker p.1.cam_id 0 p.1.frames p.1.frames.length).drop p.2

/-- The packet consumed from `p` next (its `p.2`-th packet). -/
def packetAt (p : VideoStream × Nat) : FramePacket :=
  if p.2 < p.1.frames.length then
    ⟨p.1.cam_id, p.2, p.1.frames.getD p.2 0, false⟩
  else ⟨p.1.cam_id, p.1.frames.length, 0, true⟩

/-- `(cam_id, eof index)` for every camera whose terminal packet has been
consumed, in stream order. -/
def eofList (cs : List (VideoStream × Nat)) : List (Nat × Nat) :=
  cs.filterMap (fun p =>
    if p.1.frames.length < p.2 then some (p.1.cam_id, p.1.frames.length) else none)

/-- The emission front: the least delivered-count over all cameras. -/
def AOf (cs : List (VideoStream × Nat)) : Nat := (minNat? (cs.map dOf)).getD 0

/-- Largest delivered count. -/
def maxdOf (cs : List (VideoStream × Nat)) : Nat := maxNat (cs.map dOf)

/-- The pairs `(cam_id, frame)` already delivered for index `k`. -/
def rowSrc (cs : List (VideoStream × Nat)) (k : Nat) : List (Nat × Nat) :=
  cs.filterMap (fun p =>
    if k < dOf p then some (p.1.cam_id, p.1.frames.getD k 0) else none)

/-- The reorder-buffer row for index `k`, as the `std::map` it is. -/
def rowOf (cs : List (VideoStream × Nat)) (k : Nat) : List (Nat × Nat) :=
  sortPairs (rowSrc cs k)

/-- The reorder buffer holding, for `a ≤ k < a + cnt`, the nonempty rows
`f k`. -/
def buildBuf (f : Nat → List (Nat × Nat)) : Nat → Nat → List (Nat × List (Nat × Nat))
  | _, 0 => []
  | a, cnt + 1 => (if f a = [] then [] else [(a, f a)]) ++ buildBuf f (a + 1) cnt

/-- The complete row at index `k` (all cameras present). -/
def fullRowOf (streams : List VideoStream) (k : Nat) : List (Nat × Nat) :=
  sortPairs (streams.map (fun st => (st.cam_id, st.frames.getD k 0)))

/-- The batches emitted for indices `[0, a)`. -/
def outputOf (streams : List VideoStream) (ref : ℚ) (a : Nat) : List FrameBatch :=
  (List.range a).map (fun k => ⟨k, tsOf ref k, fullRowOf streams k⟩)

/-- The assembler state after consuming, for each stream, its first
`p.2` packets (in any interleaved order). -/
def stateOf (ref : ℚ) (cs : List (VideoStream × Nat)) : AsmState :=
  ⟨ buildBuf (rowOf cs) (AOf cs) (maxdOf cs - AOf cs),
    (eofList cs).length,
    AOf cs,
    minNat? ((eofList cs).map Prod.snd),
    sortPairs (eofList cs),
    decide ((eofList cs).length = cs.length),
    0,
    outputOf (cs.map Prod.fst) ref (AOf cs) ⟩

/-- Consumed-count evolution mirroring one schedule step. -/
def csStep (cs : List (VideoStream × Nat)) (i : Nat) : List (VideoStream × Nat) :=
  match cs[i]? with
  | none => cs
  | some p => if p.2 < p.1.frames.length + 1 then cs.set i (p.1, p.2 + 1) else cs

/-- Consumed-count evolution over a whole schedule. -/
def csRun (cs : List (VideoStream × Nat)) (σ : List Nat) : List (VideoStream × Nat) :=
  σ.foldl csStep cs

/-! ### Reader sequences, closed form -/

theorem reader_worker_closed (cam : Nat) :
    ∀ (fr : List Nat) (n idx : Nat),
      reader_worker cam idx fr n =
        ((List.range (min n fr.length)).map
          (fun j => FramePacket.mk cam (idx + j) (fr.getD j 0) false)) ++
          [⟨cam, idx + min n fr.length, 0, true⟩] := by
  intro fr
  induction fr with
  | nil =>
    intro n idx
    cases n <;> simp [reader_worker]
  | cons f rest ih =>
    intro n idx
    cases n with
    | zero => simp [reader_worker]
    | succ k =>
      rw [reader_worker, ih k (idx + 1)]
      have hmin : min (k + 1) (f :: rest).length = min k rest.length + 1 := by
        simp [List.length_cons]
        omega
      rw [hmin, List.range_succ_eq_map]
      simp [List.map_map, Function.comp, Nat.add_assoc, Nat.add_comm 1]

/-! ### `buildBuf` lemmas -/

theorem buildBuf_keys_ge (f : Nat → List (Nat × Nat)) :
    ∀ (cnt a : Nat) (q : Nat × List (Nat × Nat)), q ∈ buildBuf f a cnt → a ≤ q.1 := by
  intro cnt
  induction cnt with
  | zero => intro a q hq; simp [buildBuf] at hq
  | succ c ih =>
    intro a q hq
    simp only [buildBuf, List.mem_append] at hq
    rcases hq with hq | hq
    · by_cases h : f a = []
      · simp [h] at hq
      · simp [h] at hq
        rw [hq]
    · have := ih (a + 1) q hq
      omega

theorem keySorted_buildBuf (f : Nat → List (Nat × Nat)) :
    ∀ (cnt a : Nat), KeySorted (buildBuf f a cnt) := by
  intro cnt
  induction cnt with
  | zero => intro a; simp [buildBuf]
  | succ c ih =>
    intro a
    simp only [buildBuf]
    by_cases h : f a = []
    · simpa [h] using ih (a + 1)
    · simp only [h, if_neg, if_false, List.cons_append, List.nil_append]
      refine List.pairwise_cons.2 ⟨?_, ih (a + 1)⟩
      intro q hq
      have := buildBuf_keys_ge f c (a + 1) q hq
      simp only
      omega

theorem mapFind?_buildBuf (f : Nat → List (Nat × Nat)) :
    ∀ (cnt a k : Nat),
      mapFind? k (buildBuf f a cnt) =
        if a ≤ k ∧ k < a + cnt ∧ f k ≠ [] then some (f k) else none := by
  intro cnt
  induction cnt with
  | zero =>
    intro a k
    have c1 : ¬(a ≤ k ∧ k < a + 0 ∧ f k ≠ []) := by
      rintro ⟨h1, h2, _⟩
      omega
    simp only [buildBuf, mapFind?, if_neg c1]
  | succ c ih =>
    intro a k
    simp only [buildBuf]
    by_cases h : f a = []
    · simp only [h, if_pos, List.nil_append, ih (a + 1) k]
      by_cases hak : a = k
      · subst hak
        have c1 : ¬(a + 1 ≤ a ∧ a < a + 1 + c ∧ f a ≠ []) := by
          rintro ⟨h1, _, _⟩
          omega
        have c2 : ¬(a ≤ a ∧ a < a + (c + 1) ∧ f a ≠ []) := by
          rintro ⟨_, _, h3⟩
          exact h3 h
        simp [c1, c2, h]
      · by_cases hin : a + 1 ≤ k ∧ k < a + 1 + c ∧ f k ≠ []
        · have hin2 : a ≤ k ∧ k < a + (c + 1) ∧ f k ≠ [] :=
            ⟨by omega, by omega, hin.2.2⟩
          simp [hin, hin2]
        · have hin2 : ¬(a ≤ k ∧ k < a + (c + 1) ∧ f k ≠ []) := by
            rintro ⟨h1, h2, h3⟩
            exact hin ⟨by omega, by omega, h3⟩
          simp [hin, hin2]
    · simp only [h, if_neg, if_false, List.cons_append, List.nil_append, mapFind?]
      by_cases hak : a = k
      · subst hak
        have c2 : a ≤ a ∧ a < a + (c + 1) ∧ f a ≠ [] := ⟨Nat.le_refl a, by omega, h⟩
        simp [c2]
      · simp only [hak, if_neg, if_false, ih (a + 1) k]
        by_cases hin : a + 1 ≤ k ∧ k < a + 1 + c ∧ f k ≠ []
        · have hin2 : a ≤ k ∧ k < a + (c + 1) ∧ f k ≠ [] :=
            ⟨by omega, by omega, hin.2.2⟩
          simp [hin, hin2]
        · have hin2 : ¬(a ≤ k ∧ k < a + (c + 1) ∧ f k ≠ []) := by
            rintro ⟨h1, h2, h3⟩
            exact hin ⟨by omega, by omega, h3⟩
          simp [hin, hin2]

theorem mapErase_buildBuf (f : Nat → List (Nat × Nat)) (a cnt : Nat) :
    mapErase a (buildBuf f a (cnt + 1)) = buildBuf f (a + 1) cnt := by
  simp only [buildBuf]
  by_cases h : f a = []
  · simp only [h, if_pos, List.nil_append]
    have : ∀ q ∈ buildBuf f (a + 1) cnt, a ≠ q.1 := by
      intro q hq
      have := buildBuf_keys_ge f cnt (a + 1) q hq
      omega
    generalize buildBuf f (a + 1) cnt = l at this ⊢
    induction l with
    | nil => simp [mapErase]
    | cons p t ih =>
      have hp : ¬ p.1 = a := fun hh => (this p (List.mem_cons_self _ _)) hh.symm
      simp only [mapErase, if_neg hp]
      rw [ih (fun q hq => this q (List.mem_cons_of_mem _ hq))]
  · simp [h, mapErase]

theorem buildBuf_congr {f g : Nat → List (Nat × Nat)} :
    ∀ (cnt a : Nat), (∀ k, a ≤ k → k < a + cnt → f k = g k) →
      buildBuf f a cnt = buildBuf g a cnt := by
  intro cnt
  induction cnt with
  | zero => intro a h; simp [buildBuf]
  | succ c ih =>
    intro a h
    simp only [buildBuf]
    rw [h a (Nat.le_refl a) (by omega), ih (a + 1) (fun k h1 h2 => h k (by omega) (by omega))]

theorem buildBuf_cnt_ext (f : Nat → List (Nat × Nat)) :
    ∀ (cnt' cnt a : Nat), cnt ≤ cnt' → (∀ k, a + cnt ≤ k → f k = []) →
      buildBuf f a cnt' = buildBuf f a cnt := by
  intro cnt'
  induction cnt' with
  | zero =>
    intro cnt a h1 h2
    have : cnt = 0 := by omega
    rw [this]
  | succ c ih =>
    intro cnt a h1 h2
    cases cnt with
    | zero =>
      simp only [buildBuf]
      rw [h2 a (by omega)]
      simp only [if_pos, List.nil_append]
      rw [ih 0 (a + 1) (by omega) (fun k hk => h2 k (by omega))]
      rfl
    | succ d =>
      simp only [buildBuf]
      rw [ih d (a + 1) (by omega) (fun k hk => h2 k (by omega))]

theorem buildBuf_length_ge (f : Nat → List (Nat × Nat)) :
    ∀ (j cnt a : Nat), j ≤ cnt → (∀ k, a ≤ k → k < a + j → f k ≠ []) →
      j ≤ (buildBuf f a cnt).length := by
  intro j
  induction j with
  | zero => intro cnt a h1 h2; omega
  | succ d ih =>
    intro cnt a h1 h2
    cases cnt with
    | zero => omega
    | succ c =>
      simp only [buildBuf]
      rw [List.length_append]
      have hfa : f a ≠ [] := h2 a (Nat.le_refl a) (by omega)
      have := ih c (a + 1) (by omega) (fun k hk1 hk2 => h2 k (by omega) (by omega))
      simp [hfa]
      omega

/-! ### Decomposition helpers for pointwise list updates -/

theorem list_decomp {α : Type} (l : List α) (i : Nat) (hi : i < l.length) :
    l = l.take i ++ l[i] :: l.drop (i + 1) := by
  conv_lhs => rw [← List.take_append_drop i l]
  rw [List.drop_eq_getElem_cons hi]

theorem filterMap_set_decomp {α γ : Type} (g : α → Option γ) (l : List α)
    (i : Nat) (q : α) (hi : i < l.length) :
    (l.set i q).filterMap g =
      (l.take i).filterMap g ++ (g q).toList ++ (l.drop (i + 1)).filterMap g := by
  rw [List.set_eq_take_cons_drop q hi, List.filterMap_append, List.filterMap_cons]
  cases g q <;> simp

theorem filterMap_decomp {α γ : Type} (g : α → Option γ) (l : List α)
    (i : Nat) (hi : i < l.length) :
    l.filterMap g =
      (l.take i).filterMap g ++ (g l[i]).toList ++ (l.drop (i + 1)).filterMap g := by
  conv_lhs => rw [list_decomp l i hi]
  rw [List.filterMap_append, List.filterMap_cons]
  cases g l[i] <;> simp

theorem filterMap_set_congr {α γ : Type} (g : α → Option γ) (l : List α)
    (i : Nat) (q : α) (hi : i < l.length) (h : g q = g l[i]) :
    (l.set i q).filterMap g = l.filterMap g := by
  rw [filterMap_set_decomp g l i q hi, h, ← filterMap_decomp g l i hi]

theorem map_set_decomp {α γ : Type} (g : α → γ) (l : List α)
    (i : Nat) (q : α) (hi : i < l.length) :
    (l.set i q).map g = (l.take i).map g ++ g q :: (l.drop (i + 1)).map g := by
  rw [List.set_eq_take_cons_drop q hi, List.map_append, List.map_cons]

theorem map_decomp {α γ : Type} (g : α → γ) (l : List α)
    (i : Nat) (hi : i < l.length) :
    l.map g = (l.take i).map g ++ g l[i] :: (l.drop (i + 1)).map g := by
  conv_lhs => rw [list_decomp l i hi]
  rw [List.map_append, List.map_cons]

theorem map_set_congr {α γ : Type} (g : α → γ) (l : List α)
    (i : Nat) (q : α) (hi : i < l.length) (h : g q = g l[i]) :
    (l.set i q).map g = l.map g := by
  rw [map_set_decomp g l i q hi, h, ← map_decomp g l i hi]

theorem filterMap_length_lt {α γ : Type} (g : α → Option γ) (l : List α)
    (i : Nat) (hi : i < l.length) (h : g l[i] = none) :
    (l.filterMap g).length < l.length := by
  rw [filterMap_decomp g l i hi, h]
  have h1 := List.length_filterMap_le g (l.take i)
  have h2 := List.length_filterMap_le g (l.drop (i + 1))
  have h3 : (l.take i).length = i := by
    rw [List.length_take]
    omega
  have h4 : (l.drop (i + 1)).length = l.length - (i + 1) := List.length_drop _ _
  simp only [Option.toList, List.length_append, List.length_nil]
  omega

theorem mapFind?_append {β : Type} (k : Nat) (l₁ l₂ : List (Nat × β)) :
    mapFind? k (l₁ ++ l₂) =
      match mapFind? k l₁ with
      | some v => some v
      | none => mapFind? k l₂ := by
  induction l₁ with
  | nil => simp [mapFind?]
  | cons p l ih =>
    by_cases h : p.1 = k
    · simp [mapFind?, h]
    · simp [mapFind?, h, ih]

theorem minNat?_middle (xs zs : List Nat) (y : Nat) :
    minNat? (xs ++ y :: zs) =
      some ((minNat? (xs ++ zs)).elim y (fun m => min y m)) := by
  induction xs with
  | nil => simp [minNat?_cons]
  | cons a xs ih =>
    rw [List.cons_append, minNat?_cons, ih, List.cons_append, minNat?_cons]
    cases h : minNat? (xs ++ zs) with
    | none =>
      simp only [Option.elim]
      congr 1
      omega
    | some m =>
      simp only [Option.elim]
      congr 1
      omega

theorem maxNat_middle (xs zs : List Nat) (y : Nat) :
    maxNat (xs ++ y :: zs) = max y (maxNat (xs ++ zs)) := by
  induction xs with
  | nil => simp [maxNat]
  | cons a xs ih =>
    simp only [maxNat, List.foldr_cons, List.cons_append, List.foldr_append] at *
    omega

/-! ### Facts about the canonical pieces -/

theorem filterMap_keys_sublist {γ : Type} (g : (VideoStream × Nat) → Option (Nat × γ))
    (hg : ∀ p x, g p = some x → x.1 = p.1.cam_id) (cs : List (VideoStream × Nat)) :
    List.Sublist ((cs.filterMap g).map Prod.fst) (cs.map (fun p => p.1.cam_id)) := by
  induction cs with
  | nil => simp
  | cons p cs ih =>
    rw [List.filterMap_cons]
    cases h : g p with
    | none =>
      simp only [List.map_cons]
      exact ih.cons _
    | some x =>
      simp only [List.map_cons]
      rw [hg p x h]
      exact ih.cons₂ _

theorem eofList_keys_nodup {cs : List (VideoStream × Nat)}
    (hnd : (cs.map (fun p => p.1.cam_id)).Nodup) :
    ((eofList cs).map Prod.fst).Nodup := by
  refine List.Nodup.sublist ?_ hnd
  refine filterMap_keys_sublist _ ?_ cs
  intro p x h
  by_cases hc : p.1.frames.length < p.2
  · simp [hc] at h
    rw [← h]
  · simp [hc] at h

theorem rowSrc_keys_nodup {cs : List (VideoStream × Nat)} (k : Nat)
    (hnd : (cs.map (fun p => p.1.cam_id)).Nodup) :
    ((rowSrc cs k).map Prod.fst).Nodup := by
  refine List.Nodup.sublist ?_ hnd
  refine filterMap_keys_sublist _ ?_ cs
  intro p x h
  by_cases hc : k < dOf p
  · simp [hc] at h
    rw [← h]
  · simp [hc] at h

theorem AOf_spec {cs : List (VideoStream × Nat)} (hne : cs ≠ []) :
    minNat? (cs.map dOf) = some (AOf cs) := by
  cases h : minNat? (cs.map dOf) with
  | none =>
    rw [minNat?_eq_none_iff] at h
    exact absurd (List.map_eq_nil_iff.1 h) hne
  | some m => simp [AOf, h]

theorem AOf_le_dOf {cs : List (VideoStream × Nat)} (hne : cs ≠ [])
    {p : VideoStream × Nat} (hp : p ∈ cs) : AOf cs ≤ dOf p :=
  minNat?_le (AOf_spec hne) _ (List.mem_map.2 ⟨p, hp, rfl⟩)

theorem AOf_mem {cs : List (VideoStream × Nat)} (hne : cs ≠ []) :
    ∃ p ∈ cs, dOf p = AOf cs := by
  have := minNat?_mem (AOf_spec hne)
  rcases List.mem_map.1 this with ⟨p, hp, hd⟩
  exact ⟨p, hp, hd⟩

theorem AOf_le_maxdOf {cs : List (VideoStream × Nat)} (hne : cs ≠ []) :
    AOf cs ≤ maxdOf cs := by
  rcases AOf_mem hne with ⟨p, hp, hd⟩
  rw [← hd]
  exact le_maxNat (List.mem_map.2 ⟨p, hp, rfl⟩)

theorem dOf_le_maxdOf {cs : List (VideoStream × Nat)}
    {p : VideoStream × Nat} (hp : p ∈ cs) : dOf p ≤ maxdOf cs :=
  le_maxNat (List.mem_map.2 ⟨p, hp, rfl⟩)

theorem rowSrc_eq_map {cs : List (VideoStream × Nat)} {k : Nat}
    (hall : ∀ p ∈ cs, k < dOf p) :
    rowSrc cs k = cs.map (fun p => (p.1.cam_id, p.1.frames.getD k 0)) := by
  induction cs with
  | nil => rfl
  | cons p cs ih =>
    have hp := hall p (List.mem_cons_self _ _)
    simp only [rowSrc, List.filterMap_cons, if_pos hp, List.map_cons]
    rw [← ih (fun q hq => hall q (List.mem_cons_of_mem _ hq))]
    rfl

theorem rowSrc_eq_nil {cs : List (VideoStream × Nat)} {k : Nat}
    (h : maxdOf cs ≤ k) : rowSrc cs k = [] := by
  induction cs with
  | nil => rfl
  | cons p cs ih =>
    have hp : ¬ k < dOf p := by
      have := dOf_le_maxdOf (List.mem_cons_self p cs)
      omega
    have hmax : maxdOf cs ≤ k := by
      have : maxdOf cs ≤ maxdOf (p :: cs) := by
        simp only [maxdOf, maxNat, List.map_cons, List.foldr_cons]
        omega
      omega
    simp only [rowSrc, List.filterMap_cons, if_neg hp]
    exact ih hmax

theorem rowOf_eq_nil {cs : List (VideoStream × Nat)} {k : Nat}
    (h : maxdOf cs ≤ k) : rowOf cs k = [] := by
  rw [rowOf, rowSrc_eq_nil h]
  rfl

theorem rowOf_length (cs : List (VideoStream × Nat)) (k : Nat) :
    (rowOf cs k).length = (rowSrc cs k).length :=
  (sortPairs_perm _).length_eq

theorem keySorted_rowOf {cs : List (VideoStream × Nat)} (k : Nat)
    (hnd : (cs.map (fun p => p.1.cam_id)).Nodup) : KeySorted (rowOf cs k) :=
  keySorted_sortPairs (rowSrc_keys_nodup k hnd)

theorem eof_val_ge_AOf {cs : List (VideoStream × Nat)} (hne : cs ≠ [])
    (hbound : ∀ p ∈ cs, p.2 ≤ p.1.frames.length + 1) {e : Nat}
    (he : e ∈ (eofList cs).map Prod.snd) : AOf cs ≤ e := by
  rcases List.mem_map.1 he with ⟨pair, hpair, hsnd⟩
  rcases List.mem_filterMap.1 hpair with ⟨p, hp, hg⟩
  by_cases hc : p.1.frames.length < p.2
  · simp only [if_pos hc] at hg
    have hd : dOf p = p.1.frames.length := by
      have := hbound p hp
      simp [dOf]
      omega
    have := AOf_le_dOf hne hp
    have hpe : pair = (p.1.cam_id, p.1.frames.length) := by
      exact (Option.some_injective _ hg).symm
    rw [hpe] at hsnd
    simp at hsnd
    omega
  · simp [hc] at hg

/-- The state reached when the emission front is at `a0` but everything
else reflects consumed-counts `cs` (the state `try_output_complete_batches`
walks through). -/
def midState (ref : ℚ) (cs : List (VideoStream × Nat)) (a0 : Nat) : AsmState :=
  ⟨ buildBuf (rowOf cs) a0 (maxdOf cs - a0),
    (eofList cs).length, a0,
    minNat? ((eofList cs).map Prod.snd),
    sortPairs (eofList cs),
    decide ((eofList cs).length = cs.length), 0,
    outputOf (cs.map Prod.fst) ref a0 ⟩

theorem stateOf_eq_midState (ref : ℚ) (cs : List (VideoStream × Nat)) :
    stateOf ref cs = midState ref cs (AOf cs) := rfl

theorem tryOutputF_stall (total : Nat) (ref : ℚ) (fuel : Nat) (s : AsmState)
    (h : (∃ e, s.first_eof_frame_index = some e ∧ e ≤ s.next_batch_index) ∨
         mapFind? s.next_batch_index s.frame_buffer = none ∨
         (∃ row, mapFind? s.next_batch_index s.frame_buffer = some row ∧
           row.length ≠ total)) :
    try_output_complete_batchesF total ref fuel s = s := by
  cases fuel with
  | zero => rfl
  | succ n =>
    rw [try_output_complete_batchesF]
    rcases h with ⟨e, he, hle⟩ | hnone | ⟨row, hrow, hlen⟩
    · rw [he]
      simp [hle]
    · by_cases hb : (match s.first_eof_frame_index with
        | some e => decide (e ≤ s.next_batch_index)
        | none => false) = true
      · simp [hb]
      · simp only [hb, if_false, Bool.false_eq_true]
        rw [hnone]
    · by_cases hb : (match s.first_eof_frame_index with
        | some e => decide (e ≤ s.next_batch_index)
        | none => false) = true
      · simp [hb]
      · simp only [hb, if_false, Bool.false_eq_true]
        rw [hrow]
        simp [hlen]

theorem tryOutputF_emit (total : Nat) (ref : ℚ) (fuel : Nat) (s : AsmState)
    (row : List (Nat × Nat))
    (hb : (match s.first_eof_frame_index with
        | some e => decide (e ≤ s.next_batch_index)
        | none => false) = false)
    (hrow : mapFind? s.next_batch_index s.frame_buffer = some row)
    (hlen : row.length = total) :
    try_output_complete_batchesF total ref (fuel + 1) s =
      try_output_complete_batchesF total ref fuel
        { s with
          frame_buffer := mapErase s.next_batch_index s.frame_buffer,
          next_batch_index := s.next_batch_index + 1,
          output := s.output ++
            [⟨s.next_batch_index, tsOf ref s.next_batch_index, row⟩] } := by
  rw [try_output_complete_batchesF]
  simp only [hb, if_false, Bool.false_eq_true]
  rw [hrow]
  simp [hlen]

theorem rowOf_eq_fullRow {cs : List (VideoStream × Nat)} {a0 : Nat}
    (hall : ∀ p ∈ cs, a0 < dOf p) :
    rowOf cs a0 = fullRowOf (cs.map Prod.fst) a0 := by
  rw [rowOf, rowSrc_eq_map hall, fullRowOf, List.map_map]
  rfl

theorem outputOf_succ (streams : List VideoStream) (ref : ℚ) (a0 : Nat) :
    outputOf streams ref (a0 + 1) =
      outputOf streams ref a0 ++ [⟨a0, tsOf ref a0, fullRowOf streams a0⟩] := by
  simp [outputOf, List.range_succ]

theorem mapErase_front_buildBuf (f : Nat → List (Nat × Nat)) (a0 m : Nat) :
    mapErase a0 (buildBuf f a0 (m - a0)) = buildBuf f (a0 + 1) (m - (a0 + 1)) := by
  by_cases h : a0 < m
  · have h1 : m - a0 = (m - (a0 + 1)) + 1 := by omega
    rw [h1]
    exact mapErase_buildBuf f a0 _
  · have h1 : m - a0 = 0 := by omega
    have h2 : m - (a0 + 1) = 0 := by omega
    rw [h1, h2]
    rfl

theorem tryOutputF_drain (ref : ℚ) (cs : List (VideoStream × Nat))
    (hne : cs ≠ [])
    (hbound : ∀ p ∈ cs, p.2 ≤ p.1.frames.length + 1)
    (hnd : (cs.map (fun p => p.1.cam_id)).Nodup) :
    ∀ (j a0 fuel : Nat), a0 + j = AOf cs → j < fuel →
      try_output_complete_batchesF cs.length ref fuel (midState ref cs a0) =
        midState ref cs (AOf cs) := by
  intro j
  induction j with
  | zero =>
    intro a0 fuel ha hf
    have ha0 : a0 = AOf cs := by omega
    rw [← ha0]
    apply tryOutputF_stall
    right
    rcases AOf_mem hne with ⟨p, hp, hd⟩
    rcases List.getElem_of_mem hp with ⟨i, hi, hpi⟩
    have hgnone : (fun p => if a0 < dOf p then
        some (p.1.cam_id, p.1.frames.getD a0 0) else none) cs[i] = none := by
      rw [hpi]
      simp only
      rw [if_neg (show ¬ a0 < dOf p by omega)]
    have hlt : (rowSrc cs a0).length < cs.length :=
      filterMap_length_lt _ cs i hi hgnone
    cases hfind : mapFind? a0 (midState ref cs a0).frame_buffer with
    | none => left; exact hfind
    | some row =>
      right
      refine ⟨row, hfind, ?_⟩
      have hbb := mapFind?_buildBuf (rowOf cs) (maxdOf cs - a0) a0 a0
      have hfind2 : mapFind? a0 (buildBuf (rowOf cs) a0 (maxdOf cs - a0)) = some row := hfind
      rw [hbb] at hfind2
      by_cases hcond : a0 ≤ a0 ∧ a0 < a0 + (maxdOf cs - a0) ∧ rowOf cs a0 ≠ []
      · rw [if_pos hcond] at hfind2
        have hroweq : row = rowOf cs a0 := (Option.some_injective _ hfind2).symm
        rw [hroweq, rowOf_length]
        omega
      · rw [if_neg hcond] at hfind2
        exact absurd hfind2 (by simp)
  | succ d ih =>
    intro a0 fuel ha hf
    cases fuel with
    | zero => omega
    | succ m =>
      have haA : a0 < AOf cs := by omega
      have hb : (match (midState ref cs a0).first_eof_frame_index with
          | some e => decide (e ≤ (midState ref cs a0).next_batch_index)
          | none => false) = false := by
        show (match minNat? ((eofList cs).map Prod.snd) with
          | some e => decide (e ≤ a0)
          | none => false) = false
        cases hfe : minNat? ((eofList cs).map Prod.snd) with
        | none => rfl
        | some e =>
          have hee : AOf cs ≤ e := eof_val_ge_AOf hne hbound (minNat?_mem hfe)
          simp
          omega
      have hall : ∀ p ∈ cs, a0 < dOf p := by
        intro p hp
        have h1 := AOf_le_dOf hne hp
        omega
      have hrow : rowSrc cs a0 =
          cs.map (fun p => (p.1.cam_id, p.1.frames.getD a0 0)) := rowSrc_eq_map hall
      have hrowlen : (rowOf cs a0).length = cs.length := by
        rw [rowOf_length, hrow, List.length_map]
      have hrowne : rowOf cs a0 ≠ [] := by
        intro hnil
        rw [hnil] at hrowlen
        exact hne (List.length_eq_zero.1 hrowlen.symm)
      have hfind : mapFind? (midState ref cs a0).next_batch_index
          (midState ref cs a0).frame_buffer = some (rowOf cs a0) := by
        show mapFind? a0 (buildBuf (rowOf cs) a0 (maxdOf cs - a0)) = _
        rw [mapFind?_buildBuf]
        have hcond : a0 ≤ a0 ∧ a0 < a0 + (maxdOf cs - a0) ∧ rowOf cs a0 ≠ [] := by
          refine ⟨Nat.le_refl _, ?_, hrowne⟩
          have := AOf_le_maxdOf hne
          omega
        rw [if_pos hcond]
      rw [tryOutputF_emit cs.length ref m (midState ref cs a0) (rowOf cs a0)
        hb hfind hrowlen]
      have hshift : ({ midState ref cs a0 with
          frame_buffer := mapErase (midState ref cs a0).next_batch_index
            (midState ref cs a0).frame_buffer,
          next_batch_index := (midState ref cs a0).next_batch_index + 1,
          output := (midState ref cs a0).output ++
            [⟨(midState ref cs a0).next_batch_index,
              tsOf ref (midState ref cs a0).next_batch_index, rowOf cs a0⟩] } :
          AsmState) = midState ref cs (a0 + 1) := by
        simp only [midState]
        rw [AsmState.mk.injEq]
        refine ⟨?_, rfl, rfl, rfl, rfl, rfl, rfl, ?_⟩
        · exact mapErase_front_buildBuf (rowOf cs) a0 (maxdOf cs)
        · rw [outputOf_succ, rowOf_eq_fullRow hall]
      rw [hshift]
      exact ih (a0 + 1) m (by omega) (by omega)

theorem try_output_drain (ref : ℚ) (cs : List (VideoStream × Nat))
    (hne : cs ≠ [])
    (hbound : ∀ p ∈ cs, p.2 ≤ p.1.frames.length + 1)
    (hnd : (cs.map (fun p => p.1.cam_id)).Nodup)
    (a0 : Nat) (ha : a0 ≤ AOf cs) :
    try_output_complete_batches cs.length ref (midState ref cs a0) =
      stateOf ref cs := by
  rw [try_output_complete_batches, stateOf_eq_midState]
  apply tryOutputF_drain ref cs hne hbound hnd (AOf cs - a0) a0 _ (by omega)
  show AOf cs - a0 < (buildBuf (rowOf cs) a0 (maxdOf cs - a0)).length + 1
  have hlen : AOf cs - a0 ≤ (buildBuf (rowOf cs) a0 (maxdOf cs - a0)).length := by
    apply buildBuf_length_ge
    · have := AOf_le_maxdOf hne
      omega
    · intro k hk1 hk2
      have hall : ∀ p ∈ cs, k < dOf p := by
        intro p hp
        have h1 := AOf_le_dOf hne hp
        omega
      have hrl : (rowOf cs k).length = cs.length := by
        rw [rowOf_length, rowSrc_eq_map hall, List.length_map]
      intro hnil
      rw [hnil] at hrl
      exact hne (List.length_eq_zero.1 hrl.symm)
  omega

/-! ### Step-lemma helpers -/

theorem le_AOf {cs : List (VideoStream × Nat)} (hne : cs ≠ []) {m : Nat}
    (h : ∀ p ∈ cs, m ≤ dOf p) : m ≤ AOf cs := by
  rcases AOf_mem hne with ⟨p, hp, hd⟩
  rw [← hd]
  exact h p hp

theorem cam_not_in_filterMap {γ : Type} {g : (VideoStream × Nat) → Option (Nat × γ)}
    (hg : ∀ p x, g p = some x → x.1 = p.1.cam_id)
    {cs : List (VideoStream × Nat)} (hnd : (cs.map (fun p => p.1.cam_id)).Nodup)
    {i : Nat} (hi : i < cs.length) (hnone : g cs[i] = none) :
    cs[i].1.cam_id ∉ (cs.filterMap g).map Prod.fst := by
  intro hmem
  rcases List.mem_map.1 hmem with ⟨x, hx, hfst⟩
  rcases List.mem_filterMap.1 hx with ⟨r, hr, hgr⟩
  have hcam : r.1.cam_id = cs[i].1.cam_id := by
    rw [← hg r x hgr, hfst]
  rcases List.getElem_of_mem hr with ⟨j, hj, hrj⟩
  have hij : (cs.map (fun p => p.1.cam_id)).get ⟨j, by simpa using hj⟩ =
      (cs.map (fun p => p.1.cam_id)).get ⟨i, by simpa using hi⟩ := by
    simp only [List.get_eq_getElem, List.getElem_map]
    rw [hrj, hcam]
  have hji : j = i := by
    have h2 := (List.Nodup.get_inj_iff hnd).1 hij
    exact congrArg Fin.val h2
  subst hji
  rw [hrj] at hnone
  rw [hnone] at hgr
  exact Option.noConfusion hgr

theorem maxdOf_set_le {cs : List (VideoStream × Nat)} {i : Nat}
    (hi : i < cs.length) {q : VideoStream × Nat}
    (hd : dOf cs[i] ≤ dOf q) :
    maxdOf cs ≤ maxdOf (cs.set i q) := by
  unfold maxdOf
  rw [map_set_decomp _ cs i q hi, map_decomp (fun p => dOf p) cs i hi]
  rw [show ((cs.take i).map (fun p => dOf p) ++ dOf q ::
      (cs.drop (i + 1)).map (fun p => dOf p)) =
    ((cs.take i).map (fun p => dOf p)) ++ dOf q ::
      ((cs.drop (i + 1)).map (fun p => dOf p)) from rfl]
  rw [maxNat_middle, maxNat_middle]
  omega

theorem processPacket_eof_step (ref : ℚ) (cs : List (VideoStream × Nat))
    (hne : cs ≠ []) (hbound : ∀ p ∈ cs, p.2 ≤ p.1.frames.length + 1)
    (hnd : (cs.map (fun p => p.1.cam_id)).Nodup)
    (i : Nat) (hi : i < cs.length) (hterm : cs[i].2 = cs[i].1.frames.length) :
    processPacket cs.length ref (stateOf ref cs) (packetAt cs[i]) =
      stateOf ref (cs.set i (cs[i].1, cs[i].2 + 1)) := by
  have hpkt : packetAt cs[i] =
      ⟨cs[i].1.cam_id, cs[i].1.frames.length, 0, true⟩ := by
    rw [packetAt, if_neg (by omega)]
  have hdq : dOf (cs[i].1, cs[i].2 + 1) = dOf cs[i] := by
    unfold dOf
    simp only
    omega
  have hfst : (cs.set i (cs[i].1, cs[i].2 + 1)).map (fun p => p.1.cam_id) =
      cs.map (fun p => p.1.cam_id) :=
    map_set_congr _ cs i _ hi rfl
  have hnd' : ((cs.set i (cs[i].1, cs[i].2 + 1)).map (fun p => p.1.cam_id)).Nodup := by
    rw [hfst]
    exact hnd
  have hne' : cs.set i (cs[i].1, cs[i].2 + 1) ≠ [] := by
    intro h
    have h2 := congrArg List.length h
    rw [List.length_set] at h2
    simp only [List.length_nil] at h2
    omega
  have hbound' : ∀ p ∈ cs.set i (cs[i].1, cs[i].2 + 1),
      p.2 ≤ p.1.frames.length + 1 := by
    intro p hp
    rcases List.mem_or_eq_of_mem_set hp with hm | he
    · exact hbound p hm
    · rw [he]
      simp
      omega
  have hdmap : (cs.set i (cs[i].1, cs[i].2 + 1)).map (fun p => dOf p) =
      cs.map (fun p => dOf p) :=
    map_set_congr _ cs i _ hi hdq
  have hA : AOf (cs.set i (cs[i].1, cs[i].2 + 1)) = AOf cs := by
    unfold AOf
    rw [hdmap]
  have hmaxd : maxdOf (cs.set i (cs[i].1, cs[i].2 + 1)) = maxdOf cs := by
    unfold maxdOf
    rw [hdmap]
  have hrow : ∀ k, rowOf (cs.set i (cs[i].1, cs[i].2 + 1)) k = rowOf cs k := by
    intro k
    unfold rowOf rowSrc
    congr 1
    refine filterMap_set_congr _ cs i _ hi ?_
    simp [hdq]
  have hgeof : (fun p : VideoStream × Nat =>
      if p.1.frames.length < p.2 then some (p.1.cam_id, p.1.frames.length)
      else none) cs[i] = none := by
    simp only
    rw [if_neg (by omega)]
  have heofd : eofList (cs.set i (cs[i].1, cs[i].2 + 1)) =
      (cs.take i).filterMap (fun p =>
        if p.1.frames.length < p.2 then some (p.1.cam_id, p.1.frames.length)
        else none) ++
      (cs[i].1.cam_id, cs[i].1.frames.length) ::
      (cs.drop (i + 1)).filterMap (fun p =>
        if p.1.frames.length < p.2 then some (p.1.cam_id, p.1.frames.length)
        else none) := by
    unfold eofList
    rw [filterMap_set_decomp _ cs i _ hi]
    have hcond : cs[i].1.frames.length < cs[i].2 + 1 := by omega
    simp [hcond]
  have heofo : eofList cs =
      (cs.take i).filterMap (fun p =>
        if p.1.frames.length < p.2 then some (p.1.cam_id, p.1.frames.length)
        else none) ++
      (cs.drop (i + 1)).filterMap (fun p =>
        if p.1.frames.length < p.2 then some (p.1.cam_id, p.1.frames.length)
        else none) := by
    unfold eofList
    rw [filterMap_decomp _ cs i hi]
    rw [if_neg (show ¬ cs[i].1.frames.length < cs[i].2 by omega)]
    simp
  have hcamnot : cs[i].1.cam_id ∉ (eofList cs).map Prod.fst :=
    cam_not_in_filterMap (fun p x h => by
      by_cases hc : p.1.frames.length < p.2
      · simp [hc] at h
        rw [← h]
      · simp [hc] at h) hnd hi hgeof
  have hfin : (eofList (cs.set i (cs[i].1, cs[i].2 + 1))).length =
      (eofList cs).length + 1 := by
    rw [heofd, heofo]
    simp
    omega
  have hfinlt : (eofList cs).length < cs.length := by
    unfold eofList
    exact filterMap_length_lt _ cs i hi hgeof
  have hprenot : cs[i].1.cam_id ∉ ((cs.take i).filterMap (fun p =>
      if p.1.frames.length < p.2 then some (p.1.cam_id, p.1.frames.length)
      else none)).map Prod.fst ∧
      cs[i].1.cam_id ∉ ((cs.drop (i + 1)).filterMap (fun p =>
      if p.1.frames.length < p.2 then some (p.1.cam_id, p.1.frames.length)
      else none)).map Prod.fst := by
    rw [heofo, List.map_append, List.mem_append] at hcamnot
    push_neg at hcamnot
    exact hcamnot
  have hnd_eofd : ((eofList (cs.set i (cs[i].1, cs[i].2 + 1))).map Prod.fst).Nodup :=
    eofList_keys_nodup hnd'
  have hceof : mapAssign cs[i].1.cam_id cs[i].1.frames.length
      (sortPairs (eofList cs)) =
      sortPairs (eofList (cs.set i (cs[i].1, cs[i].2 + 1))) := by
    apply keySorted_ext
      (keySorted_mapAssign _ _ (keySorted_sortPairs (eofList_keys_nodup hnd)))
      (keySorted_sortPairs hnd_eofd)
    intro c
    rw [mapFind?_mapAssign, mapFind?_sortPairs hnd_eofd c, heofd, mapFind?_append]
    by_cases hc : c = cs[i].1.cam_id
    · rw [if_pos hc, hc]
      have hpre : mapFind? cs[i].1.cam_id ((cs.take i).filterMap (fun p =>
          if p.1.frames.length < p.2 then some (p.1.cam_id, p.1.frames.length)
          else none)) = none := mapFind?_eq_none_iff.2 hprenot.1
      rw [hpre]
      simp [mapFind?]
    · have hc2 : ¬ cs[i].1.cam_id = c := fun hh => hc hh.symm
      rw [if_neg hc, mapFind?_sortPairs (eofList_keys_nodup hnd) c, heofo,
        mapFind?_append]
      cases hfp : mapFind? c ((cs.take i).filterMap (fun p =>
          if p.1.frames.length < p.2 then some (p.1.cam_id, p.1.frames.length)
          else none)) with
      | some v => rfl
      | none => simp [mapFind?, hc2]
  have hsndd : (eofList (cs.set i (cs[i].1, cs[i].2 + 1))).map Prod.snd =
      ((cs.take i).filterMap (fun p =>
        if p.1.frames.length < p.2 then some (p.1.cam_id, p.1.frames.length)
        else none)).map Prod.snd ++
      cs[i].1.frames.length ::
      ((cs.drop (i + 1)).filterMap (fun p =>
        if p.1.frames.length < p.2 then some (p.1.cam_id, p.1.frames.length)
        else none)).map Prod.snd := by
    rw [heofd]
    simp
  have hsndo : (eofList cs).map Prod.snd =
      ((cs.take i).filterMap (fun p =>
        if p.1.frames.length < p.2 then some (p.1.cam_id, p.1.frames.length)
        else none)).map Prod.snd ++
      ((cs.drop (i + 1)).filterMap (fun p =>
        if p.1.frames.length < p.2 then some (p.1.cam_id, p.1.frames.length)
        else none)).map Prod.snd := by
    rw [heofo]
    simp
  have hfe : minNat? ((eofList (cs.set i (cs[i].1, cs[i].2 + 1))).map Prod.snd) =
      some (match minNat? ((eofList cs).map Prod.snd) with
        | none => cs[i].1.frames.length
        | some e => min e cs[i].1.frames.length) := by
    rw [hsndd, minNat?_middle, ← hsndo]
    cases hm : minNat? ((eofList cs).map Prod.snd) with
    | none => rfl
    | some e =>
      simp only [Option.elim]
      congr 1
      exact Nat.min_comm _ _
  have hstop : (if (eofList cs).length + 1 = cs.length then true
      else decide ((eofList cs).length = cs.length)) =
      decide ((eofList (cs.set i (cs[i].1, cs[i].2 + 1))).length =
        (cs.set i (cs[i].1, cs[i].2 + 1)).length) := by
    rw [hfin, List.length_set]
    by_cases hq : (eofList cs).length + 1 = cs.length
    · simp [hq]
    · have h1 : (eofList cs).length ≠ cs.length := by omega
      simp [hq, h1]
  have hbuf : buildBuf (rowOf cs) (AOf cs) (maxdOf cs - AOf cs) =
      buildBuf (rowOf (cs.set i (cs[i].1, cs[i].2 + 1)))
        (AOf (cs.set i (cs[i].1, cs[i].2 + 1)))
        (maxdOf (cs.set i (cs[i].1, cs[i].2 + 1)) -
          AOf (cs.set i (cs[i].1, cs[i].2 + 1))) := by
    rw [hA, hmaxd]
    exact (buildBuf_congr _ _ (fun k h1 h2 => hrow k)).symm
  have hout : outputOf (cs.map Prod.fst) ref (AOf cs) =
      outputOf ((cs.set i (cs[i].1, cs[i].2 + 1)).map Prod.fst) ref
        (AOf (cs.set i (cs[i].1, cs[i].2 + 1))) := by
    rw [hA, map_set_congr Prod.fst cs i (cs[i].1, cs[i].2 + 1) hi rfl]
  rw [hpkt]
  show try_output_complete_batches cs.length ref
    { stateOf ref cs with
      cam_eof_indices := mapAssign cs[i].1.cam_id cs[i].1.frames.length
        (stateOf ref cs).cam_eof_indices,
      finished_cams := (stateOf ref cs).finished_cams + 1,
      first_eof_frame_index :=
        some (match (stateOf ref cs).first_eof_frame_index with
              | none => cs[i].1.frames.length
              | some e => min e cs[i].1.frames.length),
      stop_flag :=
        if (stateOf ref cs).finished_cams + 1 = cs.length then true
        else (stateOf ref cs).stop_flag } =
    stateOf ref (cs.set i (cs[i].1, cs[i].2 + 1))
  have hmid : ({ stateOf ref cs with
      cam_eof_indices := mapAssign cs[i].1.cam_id cs[i].1.frames.length
        (stateOf ref cs).cam_eof_indices,
      finished_cams := (stateOf ref cs).finished_cams + 1,
      first_eof_frame_index :=
        some (match (stateOf ref cs).first_eof_frame_index with
              | none => cs[i].1.frames.length
              | some e => min e cs[i].1.frames.length),
      stop_flag :=
        if (stateOf ref cs).finished_cams + 1 = cs.length then true
        else (stateOf ref cs).stop_flag } : AsmState) =
      midState ref (cs.set i (cs[i].1, cs[i].2 + 1))
        (AOf (cs.set i (cs[i].1, cs[i].2 + 1))) := by
    simp only [stateOf, midState]
    rw [AsmState.mk.injEq]
    exact ⟨hbuf, hfin.symm, hA.symm, hfe.symm, hceof, hstop, rfl, hout⟩
  rw [hmid]
  rw [show cs.length = (cs.set i (cs[i].1, cs[i].2 + 1)).length from
    (List.length_set cs i _).symm]
  exact try_output_drain ref _ hne' hbound' hnd' _ (Nat.le_refl _)

theorem processPacket_frame (total : Nat) (ref : ℚ) (s : AsmState)
    (p : FramePacket) (hp : p.eof = false)
    (hfind : mapFind? p.cam_id s.cam_eof_indices = none) :
    processPacket total ref s p =
      try_output_complete_batches total ref
        { s with frame_buffer :=
            bufAdd p.frame_index p.cam_id p.frame s.frame_buffer } := by
  unfold processPacket
  rw [hp]
  simp [hfind]

theorem processPacket_frame_step (ref : ℚ) (cs : List (VideoStream × Nat))
    (hne : cs ≠ []) (hbound : ∀ p ∈ cs, p.2 ≤ p.1.frames.length + 1)
    (hnd : (cs.map (fun p => p.1.cam_id)).Nodup)
    (i : Nat) (hi : i < cs.length) (hlt : cs[i].2 < cs[i].1.frames.length) :
    processPacket cs.length ref (stateOf ref cs) (packetAt cs[i]) =
      stateOf ref (cs.set i (cs[i].1, cs[i].2 + 1)) := by
  have hpkt : packetAt cs[i] =
      ⟨cs[i].1.cam_id, cs[i].2, cs[i].1.frames.getD cs[i].2 0, false⟩ := by
    rw [packetAt, if_pos hlt]
  have hdi : dOf cs[i] = cs[i].2 := by
    unfold dOf
    omega
  have hdq2 : dOf (cs[i].1, cs[i].2 + 1) = cs[i].2 + 1 := by
    unfold dOf
    simp only
    omega
  have hfst : (cs.set i (cs[i].1, cs[i].2 + 1)).map (fun p => p.1.cam_id) =
      cs.map (fun p => p.1.cam_id) :=
    map_set_congr _ cs i _ hi rfl
  have hnd' : ((cs.set i (cs[i].1, cs[i].2 + 1)).map (fun p => p.1.cam_id)).Nodup := by
    rw [hfst]
    exact hnd
  have hne' : cs.set i (cs[i].1, cs[i].2 + 1) ≠ [] := by
    intro h
    have h2 := congrArg List.length h
    rw [List.length_set] at h2
    simp only [List.length_nil] at h2
    omega
  have hbound' : ∀ p ∈ cs.set i (cs[i].1, cs[i].2 + 1),
      p.2 ≤ p.1.frames.length + 1 := by
    intro p hp
    rcases List.mem_or_eq_of_mem_set hp with hm | he
    · exact hbound p hm
    · rw [he]
      simp
      omega
  have hgeofi : (fun p : VideoStream × Nat =>
      if p.1.frames.length < p.2 then some (p.1.cam_id, p.1.frames.length)
      else none) cs[i] = none := by
    simp only
    rw [if_neg (by omega)]
  have heof_eq : eofList (cs.set i (cs[i].1, cs[i].2 + 1)) = eofList cs := by
    unfold eofList
    refine filterMap_set_congr _ cs i _ hi ?_
    rw [if_neg (show ¬ (cs[i].1, cs[i].2 + 1).1.frames.length <
        (cs[i].1, cs[i].2 + 1).2 from by
      show ¬ cs[i].1.frames.length < cs[i].2 + 1
      omega), if_neg (by omega)]
  have hAle : AOf cs ≤ cs[i].2 := by
    have := AOf_le_dOf hne (cs.getElem_mem hi)
    omega
  have hmaxle : maxdOf cs ≤ maxdOf (cs.set i (cs[i].1, cs[i].2 + 1)) := by
    refine maxdOf_set_le hi ?_
    rw [hdi, hdq2]
    omega
  have hqmem : (cs[i].1, cs[i].2 + 1) ∈ cs.set i (cs[i].1, cs[i].2 + 1) := by
    have hlen : i < (cs.set i (cs[i].1, cs[i].2 + 1)).length := by
      rw [List.length_set]
      exact hi
    have h3 : (cs.set i (cs[i].1, cs[i].2 + 1))[i] = (cs[i].1, cs[i].2 + 1) :=
      List.getElem_set_self hlen
    have h4 := List.getElem_mem hlen
    rw [h3] at h4
    exact h4
  have hcimax : cs[i].2 < maxdOf (cs.set i (cs[i].1, cs[i].2 + 1)) := by
    have := dOf_le_maxdOf hqmem
    rw [hdq2] at this
    omega
  have hrowne : ∀ k, k ≠ cs[i].2 →
      rowOf (cs.set i (cs[i].1, cs[i].2 + 1)) k = rowOf cs k := by
    intro k hk
    unfold rowOf rowSrc
    congr 1
    refine filterMap_set_congr _ cs i _ hi ?_
    simp only
    rw [hdq2, show dOf cs[i] = cs[i].2 from hdi]
    by_cases hkc : k < cs[i].2
    · rw [if_pos (by omega), if_pos hkc]
    · rw [if_neg (by omega), if_neg hkc]
  have hgrow_i : (fun p : VideoStream × Nat =>
      if cs[i].2 < dOf p then some (p.1.cam_id, p.1.frames.getD cs[i].2 0)
      else none) cs[i] = none := by
    simp only
    rw [if_neg (by omega)]
  have hrow_d : rowSrc (cs.set i (cs[i].1, cs[i].2 + 1)) cs[i].2 =
      (cs.take i).filterMap (fun p =>
        if cs[i].2 < dOf p then some (p.1.cam_id, p.1.frames.getD cs[i].2 0)
        else none) ++
      (cs[i].1.cam_id, cs[i].1.frames.getD cs[i].2 0) ::
      (cs.drop (i + 1)).filterMap (fun p =>
        if cs[i].2 < dOf p then some (p.1.cam_id, p.1.frames.getD cs[i].2 0)
        else none) := by
    unfold rowSrc
    rw [filterMap_set_decomp _ cs i _ hi]
    rw [show dOf (cs[i].1, cs[i].2 + 1) = cs[i].2 + 1 from hdq2]
    simp
  have hrow_o : rowSrc cs cs[i].2 =
      (cs.take i).filterMap (fun p =>
        if cs[i].2 < dOf p then some (p.1.cam_id, p.1.frames.getD cs[i].2 0)
        else none) ++
      (cs.drop (i + 1)).filterMap (fun p =>
        if cs[i].2 < dOf p then some (p.1.cam_id, p.1.frames.getD cs[i].2 0)
        else none) := by
    unfold rowSrc
    rw [filterMap_decomp _ cs i hi]
    rw [show dOf cs[i] = cs[i].2 from hdi]
    rw [if_neg (by omega)]
    simp
  have hcamrow : cs[i].1.cam_id ∉ (rowSrc cs cs[i].2).map Prod.fst := by
    unfold rowSrc
    exact cam_not_in_filterMap (fun p x h => by
      by_cases hc : cs[i].2 < dOf p
      · simp [hc] at h
        rw [← h]
      · simp [hc] at h) hnd hi hgrow_i
  have hprerow : cs[i].1.cam_id ∉ ((cs.take i).filterMap (fun p =>
        if cs[i].2 < dOf p then some (p.1.cam_id, p.1.frames.getD cs[i].2 0)
        else none)).map Prod.fst ∧
      cs[i].1.cam_id ∉ ((cs.drop (i + 1)).filterMap (fun p =>
        if cs[i].2 < dOf p then some (p.1.cam_id, p.1.frames.getD cs[i].2 0)
        else none)).map Prod.fst := by
    rw [hrow_o, List.map_append, List.mem_append] at hcamrow
    push_neg at hcamrow
    exact hcamrow
  have hrowci : rowOf (cs.set i (cs[i].1, cs[i].2 + 1)) cs[i].2 =
      mapEmplace cs[i].1.cam_id (cs[i].1.frames.getD cs[i].2 0)
        (rowOf cs cs[i].2) := by
    apply keySorted_ext (keySorted_rowOf _ hnd')
      (keySorted_mapEmplace _ _ (keySorted_rowOf _ hnd))
    intro c
    rw [mapFind?_mapEmplace _ _ _ (keySorted_rowOf _ hnd)]
    rw [rowOf, mapFind?_sortPairs (rowSrc_keys_nodup _ hnd') c, hrow_d,
      mapFind?_append]
    by_cases hc : c = cs[i].1.cam_id
    · rw [if_pos hc, hc]
      have hpre : mapFind? cs[i].1.cam_id ((cs.take i).filterMap (fun p =>
          if cs[i].2 < dOf p then some (p.1.cam_id, p.1.frames.getD cs[i].2 0)
          else none)) = none := mapFind?_eq_none_iff.2 hprerow.1
      rw [hpre]
      have hnone : mapFind? cs[i].1.cam_id (rowOf cs cs[i].2) = none := by
        rw [rowOf, mapFind?_sortPairs (rowSrc_keys_nodup _ hnd)]
        exact mapFind?_eq_none_iff.2 hcamrow
      rw [hnone]
      simp [mapFind?]
    · have hc2 : ¬ cs[i].1.cam_id = c := fun hh => hc hh.symm
      rw [if_neg hc, rowOf, mapFind?_sortPairs (rowSrc_keys_nodup _ hnd) c,
        hrow_o, mapFind?_append]
      cases hfp : mapFind? c ((cs.take i).filterMap (fun p =>
          if cs[i].2 < dOf p then some (p.1.cam_id, p.1.frames.getD cs[i].2 0)
          else none)) with
      | some v => rfl
      | none => simp [mapFind?, hc2]
  have hrowci_ne : rowOf (cs.set i (cs[i].1, cs[i].2 + 1)) cs[i].2 ≠ [] := by
    have hmem : (cs[i].1.cam_id, cs[i].1.frames.getD cs[i].2 0) ∈
        rowSrc (cs.set i (cs[i].1, cs[i].2 + 1)) cs[i].2 := by
      rw [hrow_d]
      exact List.mem_append_right _ (List.mem_cons_self _ _)
    have := mem_sortPairs.2 hmem
    exact List.ne_nil_of_mem this
  have hAle' : AOf cs ≤ AOf (cs.set i (cs[i].1, cs[i].2 + 1)) := by
    refine le_AOf hne' ?_
    intro p hp
    rcases List.mem_or_eq_of_mem_set hp with hm | he
    · exact AOf_le_dOf hne hm
    · rw [he, hdq2]
      omega
  have hfind : mapFind? cs[i].1.cam_id (stateOf ref cs).cam_eof_indices = none := by
    show mapFind? cs[i].1.cam_id (sortPairs (eofList cs)) = none
    rw [mapFind?_sortPairs (eofList_keys_nodup hnd), mapFind?_eq_none_iff]
    exact cam_not_in_filterMap (fun p x h => by
      by_cases hc : p.1.frames.length < p.2
      · simp [hc] at h
        rw [← h]
      · simp [hc] at h) hnd hi hgeofi
  have hbufadd : bufAdd cs[i].2 cs[i].1.cam_id (cs[i].1.frames.getD cs[i].2 0)
      (buildBuf (rowOf cs) (AOf cs) (maxdOf cs - AOf cs)) =
      buildBuf (rowOf (cs.set i (cs[i].1, cs[i].2 + 1))) (AOf cs)
        (maxdOf (cs.set i (cs[i].1, cs[i].2 + 1)) - AOf cs) := by
    unfold bufAdd
    apply keySorted_ext (keySorted_mapAssign _ _ (keySorted_buildBuf _ _ _))
      (keySorted_buildBuf _ _ _)
    intro k
    have hBci := mapFind?_buildBuf (rowOf cs) (maxdOf cs - AOf cs) (AOf cs) cs[i].2
    have hBk := mapFind?_buildBuf (rowOf cs) (maxdOf cs - AOf cs) (AOf cs) k
    have hB2k := mapFind?_buildBuf (rowOf (cs.set i (cs[i].1, cs[i].2 + 1)))
      (maxdOf (cs.set i (cs[i].1, cs[i].2 + 1)) - AOf cs) (AOf cs) k
    rw [mapFind?_mapAssign, hBci, hB2k, hBk]
    have hAm := AOf_le_maxdOf hne
    by_cases hk : k = cs[i].2
    · rw [if_pos hk, hk]
      have hVrow : (if AOf cs ≤ cs[i].2 ∧
          cs[i].2 < AOf cs + (maxdOf cs - AOf cs) ∧
          rowOf cs cs[i].2 ≠ [] then some (rowOf cs cs[i].2) else none).getD [] =
          rowOf cs cs[i].2 := by
        by_cases hcond : AOf cs ≤ cs[i].2 ∧
            cs[i].2 < AOf cs + (maxdOf cs - AOf cs) ∧ rowOf cs cs[i].2 ≠ []
        · rw [if_pos hcond]
          rfl
        · rw [if_neg hcond]
          by_cases hrnil : rowOf cs cs[i].2 = []
          · rw [hrnil]
            rfl
          · exfalso
            apply hcond
            refine ⟨hAle, ?_, hrnil⟩
            by_contra hge
            exact hrnil (rowOf_eq_nil (by omega))
      rw [hVrow, ← hrowci]
      rw [if_pos ⟨hAle, by omega, hrowci_ne⟩]
    · rw [if_neg hk, hrowne k hk]
      by_cases hc1 : AOf cs ≤ k ∧ k < AOf cs + (maxdOf cs - AOf cs) ∧
          rowOf cs k ≠ []
      · rw [if_pos hc1, if_pos ⟨hc1.1, by omega, hc1.2.2⟩]
      · have hc2 : ¬ (AOf cs ≤ k ∧
            k < AOf cs + (maxdOf (cs.set i (cs[i].1, cs[i].2 + 1)) - AOf cs) ∧
            rowOf cs k ≠ []) := by
          rintro ⟨h1, h2, h3⟩
          apply hc1
          refine ⟨h1, ?_, h3⟩
          have hkm : k < maxdOf cs := by
            by_contra hge
            exact h3 (rowOf_eq_nil (by omega))
          omega
        rw [if_neg hc1, if_neg hc2]
  rw [hpkt]
  rw [processPacket_frame cs.length ref (stateOf ref cs) _ rfl hfind]
  show try_output_complete_batches cs.length ref
    { stateOf ref cs with frame_buffer := bufAdd cs[i].2 cs[i].1.cam_id (cs[i].1.frames.getD cs[i].2 0) (stateOf ref cs).frame_buffer } =
    stateOf ref (cs.set i (cs[i].1, cs[i].2 + 1))
  have hmid : ({ stateOf ref cs with frame_buffer := bufAdd cs[i].2 cs[i].1.cam_id (cs[i].1.frames.getD cs[i].2 0) (stateOf ref cs).frame_buffer } : AsmState) =
      midState ref (cs.set i (cs[i].1, cs[i].2 + 1)) (AOf cs) := by
    simp only [stateOf, midState]
    rw [AsmState.mk.injEq]
    refine ⟨hbufadd, ?_, rfl, ?_, ?_, ?_, rfl, ?_⟩
    · rw [heof_eq]
    · rw [heof_eq]
    · rw [heof_eq]
    · rw [heof_eq, List.length_set]
    · rw [map_set_congr Prod.fst cs i (cs[i].1, cs[i].2 + 1) hi rfl]
  rw [hmid]
  rw [show cs.length = (cs.set i (cs[i].1, cs[i].2 + 1)).length from
    (List.length_set cs i _).symm]
  exact try_output_drain ref _ hne' hbound' hnd' (AOf cs) hAle'

/-! ### Remaining-packet bookkeeping -/

theorem reader_worker_length (cam idx : Nat) (fr : List Nat) (n : Nat) :
    (reader_worker cam idx fr n).length = min n fr.length + 1 := by
  rw [reader_worker_closed]
  simp

theorem remOf_eq_nil_iff {p : VideoStream × Nat} :
    remOf p = [] ↔ p.1.frames.length + 1 ≤ p.2 := by
  unfold remOf
  rw [List.drop_eq_nil_iff]
  rw [reader_worker_length]
  omega

theorem reader_worker_drop (cam : Nat) :
    ∀ (fr : List Nat) (idx ci : Nat), ci ≤ fr.length →
      (reader_worker cam idx fr fr.length).drop ci =
        (if ci < fr.length then FramePacket.mk cam (idx + ci) (fr.getD ci 0) false
         else ⟨cam, idx + fr.length, 0, true⟩) ::
        (reader_worker cam idx fr fr.length).drop (ci + 1) := by
  intro fr
  induction fr with
  | nil =>
    intro idx ci hci
    simp only [List.length_nil, Nat.le_zero] at hci
    subst hci
    simp [reader_worker]
  | cons f rest ih =>
    intro idx ci hci
    cases ci with
    | zero => simp [reader_worker]
    | succ c =>
      have hc : c ≤ rest.length := by simpa using hci
      show (FramePacket.mk cam idx f false ::
        reader_worker cam (idx + 1) rest rest.length).drop (c + 1) =
        (if c + 1 < (f :: rest).length then
          FramePacket.mk cam (idx + (c + 1)) ((f :: rest).getD (c + 1) 0) false
         else ⟨cam, idx + (f :: rest).length, 0, true⟩) ::
        (FramePacket.mk cam idx f false ::
          reader_worker cam (idx + 1) rest rest.length).drop (c + 1 + 1)
      rw [List.drop_succ_cons, ih (idx + 1) c hc, List.drop_succ_cons]
      congr 1
      by_cases hcm : c < rest.length
      · rw [if_pos hcm, if_pos (by simp; omega)]
        simp [FramePacket.mk.injEq]
        omega
      · rw [if_neg hcm, if_neg (by simp; omega)]
        simp [FramePacket.mk.injEq]
        omega

theorem remOf_cons {p : VideoStream × Nat} (h : p.2 ≤ p.1.frames.length) :
    remOf p = packetAt p :: remOf (p.1, p.2 + 1) := by
  unfold remOf
  rw [reader_worker_drop p.1.cam_id p.1.frames 0 p.2 h]
  congr 1
  unfold packetAt
  by_cases hci : p.2 < p.1.frames.length
  · rw [if_pos hci, if_pos hci]
    simp
  · rw [if_neg hci, if_neg hci]
    simp

theorem remOf_getD (cs : List (VideoStream × Nat)) (i : Nat) :
    (cs.map remOf).getD i [] =
      match cs[i]? with
      | none => []
      | some p => remOf p := by
  rw [List.getD_eq_getElem?_getD, List.getElem?_map]
  cases h : cs[i]? with
  | none => rfl
  | some p => rfl

/-- Main loop invariant: consuming, from the canonical state of `cs`, the
channel contents generated by any schedule yields the canonical state of
the advanced counts, with nothing left unconsumed. -/
theorem runLoop_schedule (ref : ℚ) (σ : List Nat) :
    ∀ (cs : List (VideoStream × Nat)),
      cs ≠ [] →
      (∀ p ∈ cs, p.2 ≤ p.1.frames.length + 1) →
      ((cs.map (fun p => p.1.cam_id)).Nodup) →
      runLoop cs.length ref (stateOf ref cs) (runSchedule (cs.map remOf) σ) =
        (stateOf ref (csRun cs σ), []) := by
  induction σ with
  | nil =>
    intro cs hne hbound hnd
    simp [runSchedule, runLoop, csRun]
  | cons i σ ih =>
    intro cs hne hbound hnd
    cases hgi : cs[i]? with
    | none =>
      have hget : (cs.map remOf).getD i [] = [] := by
        rw [remOf_getD, hgi]
      rw [runSchedule, hget]
      have hstep : csStep cs i = cs := by
        rw [csStep, hgi]
      rw [show csRun cs (i :: σ) = csRun (csStep cs i) σ from rfl, hstep]
      exact ih cs hne hbound hnd
    | some p =>
      have hget : (cs.map remOf).getD i [] = remOf p := by
        rw [remOf_getD, hgi]
      have hip : i < cs.length := by
        by_contra hge
        rw [List.getElem?_eq_none (by omega)] at hgi
        exact Option.noConfusion hgi
      have hpi : cs[i] = p := by
        have := List.getElem?_eq_getElem (l := cs) (n := i) hip
        rw [hgi] at this
        exact (Option.some_injective _ this.symm)
      by_cases hdone : p.2 < p.1.frames.length + 1
      · have hrem : remOf p = packetAt p :: remOf (p.1, p.2 + 1) :=
          remOf_cons (by omega)
        rw [runSchedule, hget, hrem]
        have hfinlt : (eofList cs).length < cs.length := by
          unfold eofList
          refine filterMap_length_lt _ cs i hip ?_
          rw [hpi]
          rw [if_neg (by omega)]
        rw [runLoop, if_pos (show (stateOf ref cs).finished_cams < cs.length from hfinlt)]
        have hdone2 : cs[i].2 < cs[i].1.frames.length + 1 := by
          rw [hpi]
          omega
        have hstepP : processPacket cs.length ref (stateOf ref cs) (packetAt p) =
            stateOf ref (cs.set i (p.1, p.2 + 1)) := by
          rw [← hpi]
          by_cases hc : cs[i].2 < cs[i].1.frames.length
          · exact processPacket_frame_step ref cs hne hbound hnd i hip hc
          · have heq : cs[i].2 = cs[i].1.frames.length := by omega
            exact processPacket_eof_step ref cs hne hbound hnd i hip heq
        rw [hstepP]
        have hsetmap : (cs.map remOf).set i (remOf (p.1, p.2 + 1)) =
            (cs.set i (p.1, p.2 + 1)).map remOf := by
          rw [List.map_set]
        rw [hsetmap]
        have hne2 : cs.set i (p.1, p.2 + 1) ≠ [] := by
          intro h
          have h2 := congrArg List.length h
          rw [List.length_set] at h2
          simp only [List.length_nil] at h2
          omega
        have hbound2 : ∀ q ∈ cs.set i (p.1, p.2 + 1),
            q.2 ≤ q.1.frames.length + 1 := by
          intro q hq
          rcases List.mem_or_eq_of_mem_set hq with hm | he
          · exact hbound q hm
          · rw [he]
            simp
            omega
        have hnd2 : ((cs.set i (p.1, p.2 + 1)).map (fun q => q.1.cam_id)).Nodup := by
          rw [map_set_congr _ cs i (p.1, p.2 + 1) hip (by rw [hpi])]
          exact hnd
        have hlen2 : cs.length = (cs.set i (p.1, p.2 + 1)).length :=
          (List.length_set cs i _).symm
        rw [hlen2]
        rw [ih (cs.set i (p.1, p.2 + 1)) hne2 hbound2 hnd2]
        rw [show csRun cs (i :: σ) = csRun (csStep cs i) σ from rfl]
        have hstep : csStep cs i = cs.set i (p.1, p.2 + 1) := by
          simp [csStep, hgi, hdone]
        rw [hstep]
      · have hrem : remOf p = [] := remOf_eq_nil_iff.2 (by omega)
        rw [runSchedule, hget, hrem]
        have hstep : csStep cs i = cs := by
          simp [csStep, hgi, hdone]
        rw [show csRun cs (i :: σ) = csRun (csStep cs i) σ from rfl, hstep]
        exact ih cs hne hbound hnd

/-! ### Engine characterization -/

/-- Effective output bound: shortest stream length. -/
def minLenOf (streams : List VideoStream) : Nat :=
  (minNat? (streams.map (fun st => st.frames.length))).getD 0

theorem maxNat_le {l : List Nat} {m : Nat} (h : ∀ x ∈ l, x ≤ m) :
    maxNat l ≤ m := by
  induction l with
  | nil => simp [maxNat]
  | cons a t ih =>
    have h1 := h a (List.mem_cons_self _ _)
    have h2 := ih (fun x hx => h x (List.mem_cons_of_mem _ hx))
    simp only [maxNat, List.foldr_cons] at *
    omega

theorem eofList_init (streams : List VideoStream) :
    eofList (streams.map (fun st => (st, 0))) = [] := by
  unfold eofList
  induction streams with
  | nil => rfl
  | cons st t iht =>
    simp only [List.map_cons, List.filterMap_cons]
    rw [if_neg (by simp)]
    exact iht

theorem stateOf_init (ref : ℚ) (streams : List VideoStream)
    (hne : streams ≠ []) :
    stateOf ref (streams.map (fun st => (st, 0))) = initState := by
  have heof := eofList_init streams
  have hne2 : streams.map (fun st => ((st, 0) : VideoStream × Nat)) ≠ [] := by
    intro h
    exact hne (List.map_eq_nil_iff.1 h)
  have hA : AOf (streams.map (fun st => (st, 0))) = 0 := by
    rcases AOf_mem hne2 with ⟨p, hp, hd⟩
    rcases List.mem_map.1 hp with ⟨st, hst, hsteq⟩
    rw [← hd, ← hsteq]
    simp [dOf]
  have hmax : maxdOf (streams.map (fun st => (st, 0))) = 0 := by
    refine Nat.le_antisymm ?_ (Nat.zero_le _)
    refine maxNat_le ?_
    intro x hx
    rcases List.mem_map.1 hx with ⟨p, hp, hpe⟩
    rcases List.mem_map.1 hp with ⟨st, hst, hsteq⟩
    rw [← hpe, ← hsteq]
    simp [dOf]
  have hlen : (streams.map (fun st => ((st, 0) : VideoStream × Nat))).length =
      streams.length := List.length_map _ _
  have hlpos : streams.length ≠ 0 := by
    intro h
    exact hne (List.length_eq_zero.1 h)
  unfold stateOf initState
  rw [AsmState.mk.injEq]
  refine ⟨?_, ?_, hA, ?_, ?_, ?_, rfl, ?_⟩
  · rw [hA, hmax]
    rfl
  · rw [heof]
    rfl
  · rw [heof]
    rfl
  · rw [heof]
    rfl
  · rw [heof, hlen]
    simp
    omega
  · rw [hA]
    rfl

theorem csStep_map_fst (cs : List (VideoStream × Nat)) (i : Nat) :
    (csStep cs i).map Prod.fst = cs.map Prod.fst := by
  unfold csStep
  cases hgi : cs[i]? with
  | none => rfl
  | some p =>
    by_cases hd : p.2 < p.1.frames.length + 1
    · simp only [hd, if_pos]
      have hip : i < cs.length := by
        by_contra hge
        rw [List.getElem?_eq_none (by omega)] at hgi
        exact Option.noConfusion hgi
      refine map_set_congr _ cs i _ hip ?_
      have : cs[i] = p := by
        have h2 := List.getElem?_eq_getElem (l := cs) (n := i) hip
        rw [hgi] at h2
        exact (Option.some_injective _ h2.symm)
      rw [this]
    · simp [hd]

theorem csRun_map_fst (σ : List Nat) :
    ∀ cs, (csRun cs σ).map Prod.fst = cs.map Prod.fst := by
  induction σ with
  | nil => intro cs; rfl
  | cons i σ ih =>
    intro cs
    show (csRun (csStep cs i) σ).map Prod.fst = _
    rw [ih (csStep cs i), csStep_map_fst]

theorem csStep_bound {cs : List (VideoStream × Nat)}
    (hbound : ∀ p ∈ cs, p.2 ≤ p.1.frames.length + 1) (i : Nat) :
    ∀ p ∈ csStep cs i, p.2 ≤ p.1.frames.length + 1 := by
  unfold csStep
  cases hgi : cs[i]? with
  | none => exact hbound
  | some q =>
    by_cases hd : q.2 < q.1.frames.length + 1
    · simp only [hd, if_pos]
      intro p hp
      rcases List.mem_or_eq_of_mem_set hp with hm | he
      · exact hbound p hm
      · rw [he]
        simp
        omega
    · simp only [hd, if_neg, if_false]
      exact hbound

theorem csRun_bound (σ : List Nat) :
    ∀ cs, (∀ p ∈ cs, p.2 ≤ p.1.frames.length + 1) →
      ∀ p ∈ csRun cs σ, p.2 ≤ p.1.frames.length + 1 := by
  induction σ with
  | nil => intro cs h; exact h
  | cons i σ ih =>
    intro cs h
    exact ih (csStep cs i) (csStep_bound h i)

theorem remAfter_cons_skip (seqs : List (List FramePacket)) (i : Nat)
    (σ : List Nat) (h : seqs.getD i [] = []) :
    remAfter seqs (i :: σ) = remAfter seqs σ := by
  rw [remAfter, h]

theorem remAfter_cons_step (seqs : List (List FramePacket)) (i : Nat)
    (σ : List Nat) (p : FramePacket) (rest : List FramePacket)
    (h : seqs.getD i [] = p :: rest) :
    remAfter seqs (i :: σ) = remAfter (seqs.set i rest) σ := by
  rw [remAfter, h]

theorem remAfter_csRun (σ : List Nat) :
    ∀ cs, remAfter (cs.map remOf) σ = (csRun cs σ).map remOf := by
  induction σ with
  | nil => intro cs; rfl
  | cons i σ ih =>
    intro cs
    cases hgi : cs[i]? with
    | none =>
      have hget : (cs.map remOf).getD i [] = [] := by
        rw [remOf_getD, hgi]
      rw [remAfter_cons_skip _ _ _ hget]
      have hstep : csStep cs i = cs := by
        rw [csStep, hgi]
      rw [show csRun cs (i :: σ) = csRun (csStep cs i) σ from rfl, hstep]
      exact ih cs
    | some p =>
      have hip : i < cs.length := by
        by_contra hge
        rw [List.getElem?_eq_none (by omega)] at hgi
        exact Option.noConfusion hgi
      by_cases hdone : p.2 < p.1.frames.length + 1
      · have hget : (cs.map remOf).getD i [] =
            packetAt p :: remOf (p.1, p.2 + 1) := by
          rw [remOf_getD, hgi]
          exact remOf_cons (by omega)
        rw [remAfter_cons_step _ _ _ _ _ hget]
        have hsetmap : (cs.map remOf).set i (remOf (p.1, p.2 + 1)) =
            (cs.set i (p.1, p.2 + 1)).map remOf := by
          rw [List.map_set]
        rw [hsetmap, ih (cs.set i (p.1, p.2 + 1))]
        rw [show csRun cs (i :: σ) = csRun (csStep cs i) σ from rfl]
        have hstep : csStep cs i = cs.set i (p.1, p.2 + 1) := by
          simp [csStep, hgi, hdone]
        rw [hstep]
      · have hget : (cs.map remOf).getD i [] = [] := by
          rw [remOf_getD, hgi]
          exact remOf_eq_nil_iff.2 (by omega)
        rw [remAfter_cons_skip _ _ _ hget]
        have hstep : csStep cs i = cs := by
          simp [csStep, hgi, hdone]
        rw [show csRun cs (i :: σ) = csRun (csStep cs i) σ from rfl, hstep]
        exact ih cs

theorem csRun_complete (streams : List VideoStream) (σ : List Nat)
    (hσ : CompleteSchedule ((streams.map (fun st => (st, 0))).map remOf) σ) :
    csRun (streams.map (fun st => (st, 0))) σ =
      streams.map (fun st => (st, st.frames.length + 1)) := by
  unfold CompleteSchedule at hσ
  rw [remAfter_csRun] at hσ
  have hbound : ∀ p ∈ csRun (streams.map (fun st => (st, 0))) σ,
      p.2 ≤ p.1.frames.length + 1 := by
    refine csRun_bound σ _ ?_
    intro p hp
    rcases List.mem_map.1 hp with ⟨st, _, he⟩
    rw [← he]
    simp
  have hfst := csRun_map_fst σ (streams.map (fun st => (st, 0)))
  have hlen : (csRun (streams.map (fun st => (st, 0))) σ).length =
      streams.length := by
    have h2 := congrArg List.length hfst
    simpa using h2
  refine List.ext_getElem (by simp [hlen]) ?_
  intro j h1 h2
  have hj : j < streams.length := by simpa using h2
  have hfstj : (csRun (streams.map (fun st => (st, 0))) σ)[j].1 = streams[j] := by
    have h3 := congrArg (fun l => l[j]?) hfst
    simp only [List.getElem?_map] at h3
    rw [List.getElem?_eq_getElem h1, List.getElem?_eq_getElem hj] at h3
    exact Option.some_injective _ h3
  have hmem : (csRun (streams.map (fun st => (st, 0))) σ)[j] ∈
      csRun (streams.map (fun st => (st, 0))) σ := List.getElem_mem h1
  have hniljr : remOf ((csRun (streams.map (fun st => (st, 0))) σ)[j]) = [] :=
    hσ _ (List.mem_map.2 ⟨_, hmem, rfl⟩)
  rw [remOf_eq_nil_iff] at hniljr
  have hb := hbound _ hmem
  have hsndj : (csRun (streams.map (fun st => (st, 0))) σ)[j].2 =
      streams[j].frames.length + 1 := by
    rw [hfstj] at hniljr hb
    omega
  rw [List.getElem_map]
  rw [show (csRun (streams.map (fun st => (st, 0))) σ)[j] =
    ((csRun (streams.map (fun st => (st, 0))) σ)[j].1,
     (csRun (streams.map (fun st => (st, 0))) σ)[j].2) from rfl]
  rw [hfstj, hsndj]

theorem eofList_full (streams : List VideoStream) :
    eofList (streams.map (fun st => (st, st.frames.length + 1))) =
      streams.map (fun st => (st.cam_id, st.frames.length)) := by
  unfold eofList
  induction streams with
  | nil => rfl
  | cons st t ih =>
    simp only [List.map_cons, List.filterMap_cons]
    rw [if_pos (by simp)]
    rw [ih]

theorem dOf_full_map (streams : List VideoStream) :
    (streams.map (fun st => (st, st.frames.length + 1))).map dOf =
      streams.map (fun st => st.frames.length) := by
  rw [List.map_map]
  refine List.map_congr_left ?_
  intro st _
  simp [dOf]

theorem fst_full (streams : List VideoStream) :
    (streams.map (fun st => (st, st.frames.length + 1))).map Prod.fst =
      streams := by
  rw [List.map_map]
  have h : ∀ st ∈ streams,
      (Prod.fst ∘ fun st => (st, st.frames.length + 1)) st = id st :=
    fun st _ => rfl
  rw [List.map_congr_left h, List.map_id]

theorem minLenOf_spec {streams : List VideoStream} (hne : streams ≠ []) :
    minNat? (streams.map (fun st => st.frames.length)) =
      some (minLenOf streams) := by
  cases h : minNat? (streams.map (fun st => st.frames.length)) with
  | none =>
    rw [minNat?_eq_none_iff] at h
    exact absurd (List.map_eq_nil_iff.1 h) hne
  | some m => simp [minLenOf, h]

theorem asm_eta_stop (s : AsmState) (h : s.stop_flag = true) :
    { s with stop_flag := true } = s := by
  cases s
  simp only at h
  rw [h]

theorem engineRun_eq (streams : List VideoStream) (σ : List Nat)
    (hne : streams ≠ []) (hnd : (streams.map (fun st => st.cam_id)).Nodup)
    (hσ : CompleteSchedule (readerSeqs streams) σ) :
    engineRun streams σ =
      stateOf (referenceFps (streams.map (fun st => st.fps)))
        (streams.map (fun st => (st, st.frames.length + 1))) := by
  have hseqs : readerSeqs streams = (streams.map (fun st => (st, 0))).map remOf := by
    unfold readerSeqs remOf
    rw [List.map_map]
    refine List.map_congr_left ?_
    intro st _
    simp
  have hne0 : streams.map (fun st => ((st, 0) : VideoStream × Nat)) ≠ [] := by
    intro h
    exact hne (List.map_eq_nil_iff.1 h)
  have hbound0 : ∀ p ∈ streams.map (fun st => ((st, 0) : VideoStream × Nat)),
      p.2 ≤ p.1.frames.length + 1 := by
    intro p hp
    rcases List.mem_map.1 hp with ⟨st, _, he⟩
    rw [← he]
    simp
  have hnd0 : ((streams.map (fun st => ((st, 0) : VideoStream × Nat))).map
      (fun p => p.1.cam_id)).Nodup := by
    rw [List.map_map]
    simpa using hnd
  have h1 : runLoop streams.length
      (referenceFps (streams.map (fun st => st.fps))) initState
      (runSchedule (readerSeqs streams) σ) =
      (stateOf (referenceFps (streams.map (fun st => st.fps)))
        (streams.map (fun st => (st, st.frames.length + 1))), []) := by
    rw [hseqs, ← stateOf_init (referenceFps (streams.map (fun st => st.fps)))
      streams hne]
    rw [show streams.length =
      (streams.map (fun st => ((st, 0) : VideoStream × Nat))).length by simp]
    rw [runLoop_schedule _ σ _ hne0 hbound0 hnd0]
    rw [csRun_complete streams σ (by rw [← hseqs]; exact hσ)]
  have hstopfact : (stateOf (referenceFps (streams.map (fun st => st.fps)))
      (streams.map (fun st => (st, st.frames.length + 1)))).stop_flag = true := by
    show decide ((eofList (streams.map (fun st => (st, st.frames.length + 1)))).length =
      (streams.map (fun st => (st, st.frames.length + 1))).length) = true
    rw [eofList_full]
    simp
  have hsnds : (eofList (streams.map
      (fun st => (st, st.frames.length + 1)))).map Prod.snd =
      streams.map (fun st => st.frames.length) := by
    rw [eofList_full, List.map_map]
    rfl
  have hAfull : AOf (streams.map (fun st => (st, st.frames.length + 1))) =
      minLenOf streams := by
    unfold AOf
    rw [dOf_full_map, minLenOf_spec hne]
    rfl
  have hstall : try_output_complete_batches streams.length
      (referenceFps (streams.map (fun st => st.fps)))
      (stateOf (referenceFps (streams.map (fun st => st.fps)))
        (streams.map (fun st => (st, st.frames.length + 1)))) =
      stateOf (referenceFps (streams.map (fun st => st.fps)))
        (streams.map (fun st => (st, st.frames.length + 1))) := by
    rw [try_output_complete_batches]
    refine tryOutputF_stall _ _ _ _ (Or.inl ⟨minLenOf streams, ?_, ?_⟩)
    · show minNat? ((eofList (streams.map
        (fun st => (st, st.frames.length + 1)))).map Prod.snd) = _
      rw [hsnds]
      exact minLenOf_spec hne
    · show minLenOf streams ≤
        AOf (streams.map (fun st => (st, st.frames.length + 1)))
      rw [hAfull]
  show try_output_complete_batches streams.length
      (referenceFps (streams.map (fun st => st.fps)))
      (drainLoop streams.length (referenceFps (streams.map (fun st => st.fps)))
        { (runLoop streams.length (referenceFps (streams.map (fun st => st.fps)))
            initState (runSchedule (readerSeqs streams) σ)).1 with
          stop_flag := true }
        (runLoop streams.length (referenceFps (streams.map (fun st => st.fps)))
          initState (runSchedule (readerSeqs streams) σ)).2) =
    stateOf (referenceFps (streams.map (fun st => st.fps)))
      (streams.map (fun st => (st, st.frames.length + 1)))
  rw [h1]
  show try_output_complete_batches streams.length
      (referenceFps (streams.map (fun st => st.fps)))
      { stateOf (referenceFps (streams.map (fun st => st.fps)))
          (streams.map (fun st => (st, st.frames.length + 1))) with
        stop_flag := true } =
    stateOf (referenceFps (streams.map (fun st => st.fps)))
      (streams.map (fun st => (st, st.frames.length + 1)))
  rw [asm_eta_stop _ hstopfact]
  exact hstall

theorem AOf_full_eq (streams : List VideoStream) (hne : streams ≠ []) :
    AOf (streams.map (fun st => (st, st.frames.length + 1))) =
      minLenOf streams := by
  unfold AOf
  rw [dOf_full_map, minLenOf_spec hne]
  rfl

theorem extract_frames_parallel_eq (streams : List VideoStream) (σ : List Nat)
    (hne : streams ≠ []) (hnd : (streams.map (fun st => st.cam_id)).Nodup)
    (hσ : CompleteSchedule (readerSeqs streams) σ) :
    extract_frames_parallel streams σ =
      outputOf streams (referenceFps (streams.map (fun st => st.fps)))
        (minLenOf streams) := by
  rw [extract_frames_parallel]
  rw [if_neg (by simp [hne])]
  rw [engineRun_eq streams σ hne hnd hσ]
  show outputOf ((streams.map (fun st => (st, st.frames.length + 1))).map Prod.fst)
    (referenceFps (streams.map (fun st => st.fps)))
    (AOf (streams.map (fun st => (st, st.frames.length + 1)))) = _
  rw [fst_full, AOf_full_eq streams hne]

/-! ### Closed form of the lock-step single-threaded extractor -/

theorem minNat?_map_pred (l : List Nat) :
    minNat? (l.map (fun x => x - 1)) = (minNat? l).map (fun x => x - 1) := by
  induction l with
  | nil => rfl
  | cons a t ih =>
    rw [List.map_cons, minNat?_cons, ih, minNat?_cons]
    cases h : minNat? t with
    | none => rfl
    | some m =>
      show some (min (a - 1) (m - 1)) = some (min a m - 1)
      congr 1
      omega

theorem all_ne_nil {cams : List (Nat × List Nat)}
    (hall : cams.all (fun p => !p.2.isEmpty)) {p : Nat × List Nat}
    (hp : p ∈ cams) : p.2 ≠ [] := by
  have h2 := List.all_eq_true.1 hall p hp
  intro hnil
  rw [hnil] at h2
  simp at h2

theorem not_all_ne_nil {cams : List (Nat × List Nat)}
    (hall : ¬ (cams.all (fun p => !p.2.isEmpty) = true)) :
    ∃ p ∈ cams, p.2 = [] := by
  rw [List.all_eq_true] at hall
  push_neg at hall
  rcases hall with ⟨p, hp, hpe⟩
  refine ⟨p, hp, ?_⟩
  cases hpp : p.2 with
  | nil => rfl
  | cons a t =>
    rw [hpp] at hpe
    simp at hpe

theorem le_sum_of_mem {l : List Nat} {x : Nat} (h : x ∈ l) :
    x ≤ l.foldr (· + ·) 0 := by
  induction l with
  | nil => simp at h
  | cons a t ih =>
    rcases List.mem_cons.1 h with he | hm
    · subst he
      simp only [List.foldr_cons]
      omega
    · have := ih hm
      simp only [List.foldr_cons]
      omega

theorem singleLoopF_closed (fps0 : ℚ) :
    ∀ (fuel : Nat) (cams : List (Nat × List Nat)) (idx : Nat),
      cams ≠ [] →
      (minNat? (cams.map (fun p => p.2.length))).getD 0 < fuel →
      singleLoopF fps0 fuel cams idx =
        (List.range ((minNat? (cams.map (fun p => p.2.length))).getD 0)).map
          (fun j => ⟨idx + j, tsOf fps0 (idx + j),
            sortPairs (cams.map (fun p => (p.1, p.2.getD j 0)))⟩) := by
  intro fuel
  induction fuel with
  | zero =>
    intro cams idx hne hf
    omega
  | succ m ih =>
    intro cams idx hne hf
    have hmn : minNat? (cams.map (fun p => p.2.length)) =
        some ((minNat? (cams.map (fun p => p.2.length))).getD 0) := by
      cases h : minNat? (cams.map (fun p => p.2.length)) with
      | none =>
        rw [minNat?_eq_none_iff] at h
        exact absurd (List.map_eq_nil_iff.1 h) hne
      | some k => rfl
    by_cases hall : cams.all (fun p => !p.2.isEmpty)
    · have hpos : 0 < (minNat? (cams.map (fun p => p.2.length))).getD 0 := by
        rcases List.mem_map.1 (minNat?_mem hmn) with ⟨p, hp, hpe⟩
        have hpne := all_ne_nil hall hp
        have hlen : p.2.length ≠ 0 := by
          intro h0
          exact hpne (List.length_eq_zero.1 h0)
        omega
      have htail_ne : cams.map (fun p => (p.1, p.2.tail)) ≠ [] := by
        intro h
        exact hne (List.map_eq_nil_iff.1 h)
      have htlen : (cams.map (fun p => (p.1, p.2.tail))).map
          (fun p => p.2.length) =
          (cams.map (fun p => p.2.length)).map (fun x => x - 1) := by
        rw [List.map_map, List.map_map]
        refine List.map_congr_left ?_
        intro p _
        simp
      have htmin : (minNat? ((cams.map (fun p => (p.1, p.2.tail))).map
          (fun p => p.2.length))).getD 0 =
          (minNat? (cams.map (fun p => p.2.length))).getD 0 - 1 := by
        rw [htlen, minNat?_map_pred, hmn]
        rfl
      rw [singleLoopF, if_pos hall]
      rw [ih (cams.map (fun p => (p.1, p.2.tail))) (idx + 1) htail_ne
        (by rw [htmin]; omega)]
      rw [show (minNat? (cams.map (fun p => p.2.length))).getD 0 =
        ((minNat? (cams.map (fun p => p.2.length))).getD 0 - 1) + 1 by omega,
        List.range_succ_eq_map]
      rw [List.map_cons, htmin]
      congr 1
      · simp only [Nat.add_zero]
        congr 1
        refine congrArg sortPairs ?_
        refine List.map_congr_left ?_
        intro p hp
        have hpne := all_ne_nil hall hp
        cases hpp : p.2 with
        | nil => exact absurd hpp hpne
        | cons a t => simp [hpp]
      · rw [List.map_map]
        refine List.map_congr_left ?_
        intro j _
        have harith : idx + 1 + j = idx + (j + 1) := by omega
        simp only [Function.comp]
        rw [harith]
        congr 1
        rw [List.map_map]
        refine congrArg sortPairs ?_
        refine List.map_congr_left ?_
        intro p hp
        have hpne := all_ne_nil hall hp
        cases hpp : p.2 with
        | nil => exact absurd hpp hpne
        | cons a t => simp [hpp]
    · have hzero : (minNat? (cams.map (fun p => p.2.length))).getD 0 = 0 := by
        rcases not_all_ne_nil hall with ⟨p, hp, hpnil⟩
        have hm0 : (0 : Nat) ∈ cams.map (fun p => p.2.length) := by
          refine List.mem_map.2 ⟨p, hp, ?_⟩
          rw [hpnil]
          rfl
        have := minNat?_le hmn 0 hm0
        omega
      rw [singleLoopF, if_neg hall, hzero]
      rfl

theorem extract_frames_single_eq (st0 : VideoStream) (rest : List VideoStream) :
    extract_frames_single (st0 :: rest) =
      (List.range (minLenOf (st0 :: rest))).map (fun k =>
        FrameBatch.mk k (tsOf st0.fps k) (fullRowOf (st0 :: rest) k)) := by
  have hlens : ((st0 :: rest).map (fun st => (st.cam_id, st.frames))).map
      (fun p => p.2.length) = (st0 :: rest).map (fun st => st.frames.length) := by
    rw [List.map_map]
    rfl
  have hne2 : (st0 :: rest).map (fun st => (st.cam_id, st.frames)) ≠ [] := by
    simp
  have hmem := minNat?_mem (minLenOf_spec (show (st0 :: rest) ≠ [] by simp))
  have hsum := le_sum_of_mem hmem
  have hfuel : (minNat? (((st0 :: rest).map (fun st => (st.cam_id, st.frames))).map
      (fun p => p.2.length))).getD 0 <
      ((st0 :: rest).map (fun st => st.frames.length)).foldr (· + ·) 0 + 1 := by
    rw [hlens, minLenOf_spec (show (st0 :: rest) ≠ [] by simp)]
    show minLenOf (st0 :: rest) < _
    omega
  show singleLoopF st0.fps
      (((st0 :: rest).map (fun st => st.frames.length)).foldr (· + ·) 0 + 1)
      ((st0 :: rest).map (fun st => (st.cam_id, st.frames))) 0 = _
  rw [singleLoopF_closed st0.fps _ _ 0 hne2 hfuel]
  rw [show (minNat? (((st0 :: rest).map (fun st => (st.cam_id, st.frames))).map
      (fun p => p.2.length))).getD 0 = minLenOf (st0 :: rest) by
    rw [hlens]
    rfl]
  refine List.map_congr_left ?_
  intro j _
  simp only [Nat.zero_add]
  congr 1
  rw [fullRowOf]
  refine congrArg sortPairs ?_
  rw [List.map_map]
  rfl

/-! ### `reference_fps` selection -/

theorem referenceFps_eq_zero : ∀ (l : List ℚ), (∀ f ∈ l, ¬ 0 < f) →
    referenceFps l = 0 := by
  intro l
  induction l with
  | nil => intro h; rfl
  | cons f t ih =>
    intro h
    have hf := h f (List.mem_cons_self _ _)
    rw [referenceFps, if_neg hf]
    exact ih (fun g hg => h g (List.mem_cons_of_mem _ hg))

theorem referenceFps_mem_pos : ∀ (l : List ℚ), (∃ f ∈ l, 0 < f) →
    referenceFps l ∈ l ∧ 0 < referenceFps l := by
  intro l
  induction l with
  | nil => rintro ⟨f, hf, _⟩; simp at hf
  | cons g t ih =>
    rintro ⟨f, hf, hfpos⟩
    by_cases hg : 0 < g
    · rw [referenceFps, if_pos hg]
      exact ⟨List.mem_cons_self _ _, hg⟩
    · rw [referenceFps, if_neg hg]
      have hmem : ∃ f ∈ t, 0 < f := by
        rcases List.mem_cons.1 hf with he | hm
        · subst he; exact absurd hfpos hg
        · exact ⟨f, hm, hfpos⟩
      rcases ih hmem with ⟨h1, h2⟩
      exact ⟨List.mem_cons_of_mem _ h1, h2⟩

/-! ### `BlockingQueue` facts -/

theorem pushAll_open {α : Type} (items : List α) (l : List α) :
    BlockingQueue.pushAll ⟨items, false⟩ l = ⟨items ++ l, false⟩ := by
  induction l generalizing items with
  | nil => simp [BlockingQueue.pushAll]
  | cons v t ih =>
    show BlockingQueue.pushAll (BlockingQueue.push ⟨items, false⟩ v) t = _
    rw [show BlockingQueue.push (⟨items, false⟩ : BlockingQueue α) v =
      ⟨items ++ [v], false⟩ by simp [BlockingQueue.push]]
    rw [ih (items ++ [v])]
    simp

theorem popAll_spec {α : Type} (l : List α) (c : Bool) :
    BlockingQueue.popAll (⟨l, c⟩ : BlockingQueue α) = l := by
  induction l with
  | nil => rw [BlockingQueue.popAll]
  | cons v t ih => rw [BlockingQueue.popAll, ih]

/-! ## Concrete fixtures for witnesses and counterexamples -/

/-- Two well-formed streams of unequal length (5 and 3 frames). -/
def fixA : List VideoStream := [⟨0, 25, [10, 11, 12, 13, 14]⟩, ⟨1, 25, [20, 21, 22]⟩]

/-- A round-robin complete schedule for `fixA` (6 packets for camera 0,
4 for camera 1). -/
def schedA : List Nat := [0, 1, 0, 1, 0, 1, 0, 1, 0, 0]

/-- A sequential complete schedule for `fixA`. -/
def schedA2 : List Nat := [0, 0, 0, 0, 0, 0, 1, 1, 1, 1]

/-! ## The claims -/

/-- C1 (confirmed): for every run of the parallel engine — any complete
delivery schedule `σ` — on nonempty streams with distinct camera ids,
the emitted batch indices are exactly `0, 1, ..., M-1` in order (no
gaps, no repeats), where `M` is the minimum over the discovered cameras
of the number of frames read before end-of-stream. -/
theorem c1_batch_indices_contiguous (streams : List VideoStream) (σ : List Nat)
    (hne : streams ≠ []) (hnd : (streams.map (fun st => st.cam_id)).Nodup)
    (hσ : CompleteSchedule (readerSeqs streams) σ) :
    (extract_frames_parallel streams σ).map (fun b => b.frame_index) =
      List.range (minLenOf streams) := by
  rw [extract_frames_parallel_eq streams σ hne hnd hσ, outputOf, List.map_map]
  have h : ∀ k ∈ List.range (minLenOf streams),
      ((fun b => b.frame_index) ∘ fun k =>
        FrameBatch.mk k (tsOf (referenceFps (streams.map (fun st => st.fps))) k)
          (fullRowOf streams k)) k = id k := fun k _ => rfl
  rw [List.map_congr_left h, List.map_id]

/-- C1 witness: the engine on `fixA` under the round-robin schedule emits
batch indices `[0, 1, 2]` (`M = 3`). -/
theorem c1_witness :
    fixA ≠ [] ∧ (fixA.map (fun st => st.cam_id)).Nodup ∧
    CompleteSchedule (readerSeqs fixA) schedA ∧
    (extract_frames_parallel fixA schedA).map (fun b => b.frame_index) =
      List.range (minLenOf fixA) :=
  ⟨by decide, by decide, by decide,
    c1_batch_indices_contiguous fixA schedA (by decide) (by decide) (by decide)⟩

/-- C6 (confirmed): two runs of the parallel engine on the same streams
under any two complete schedules emit identical batch sequences (index,
frame content and derived timestamp alike). -/
theorem c6_schedule_independence (streams : List VideoStream)
    (σ1 σ2 : List Nat) (hne : streams ≠ [])
    (hnd : (streams.map (fun st => st.cam_id)).Nodup)
    (hσ1 : CompleteSchedule (readerSeqs streams) σ1)
    (hσ2 : CompleteSchedule (readerSeqs streams) σ2) :
    extract_frames_parallel streams σ1 = extract_frames_parallel streams σ2 := by
  rw [extract_frames_parallel_eq streams σ1 hne hnd hσ1,
    extract_frames_parallel_eq streams σ2 hne hnd hσ2]

/-- C6 witness: on `fixA`, the round-robin and the sequential schedules
yield the same batches. -/
theorem c6_witness :
    fixA ≠ [] ∧ (fixA.map (fun st => st.cam_id)).Nodup ∧
    CompleteSchedule (readerSeqs fixA) schedA ∧
    CompleteSchedule (readerSeqs fixA) schedA2 ∧
    extract_frames_parallel fixA schedA = extract_frames_parallel fixA schedA2 :=
  ⟨by decide, by decide, by decide, by decide,
    c6_schedule_independence fixA schedA schedA2 (by decide) (by decide)
      (by decide) (by decide)⟩

/-- C7 (confirmed): a reader pushes non-terminal packets with frame
indices `0, 1, 2, ...` (no gaps, no repeats), then exactly one terminal
packet whose index is the count of frames delivered, and nothing after
it — for every combination of stop-signal budget (`stopAfter`) and
stream content (`frames`), i.e. whether the loop ends by cancellation,
exhaustion or read failure. -/
theorem c7_reader_packet_discipline (cam : Nat) (frames : List Nat)
    (stopAfter : Nat) :
    reader_worker cam 0 frames stopAfter =
      ((List.range (min stopAfter frames.length)).map
        (fun j => FramePacket.mk cam j (frames.getD j 0) false)) ++
        [⟨cam, min stopAfter frames.length, 0, true⟩] ∧
    ((reader_worker cam 0 frames stopAfter).filter (fun p => p.eof)) =
      [⟨cam, min stopAfter frames.length, 0, true⟩] ∧
    (reader_worker cam 0 frames stopAfter).getLast? =
      some ⟨cam, min stopAfter frames.length, 0, true⟩ ∧
    ((reader_worker cam 0 frames stopAfter).filter (fun p => !p.eof)).map
      (fun p => p.frame_index) = List.range (min stopAfter frames.length) := by
  have h := reader_worker_closed cam frames stopAfter 0
  have hmap : (List.range (min stopAfter frames.length)).map
      (fun j => FramePacket.mk cam (0 + j) (frames.getD j 0) false) =
      (List.range (min stopAfter frames.length)).map
      (fun j => FramePacket.mk cam j (frames.getD j 0) false) := by
    refine List.map_congr_left ?_
    intro j _
    rw [Nat.zero_add]
  rw [hmap, Nat.zero_add] at h
  refine ⟨h, ?_, ?_, ?_⟩
  · rw [h]
    simp [List.filter_append, List.filter_map]
  · rw [h]
    simp
  · have h1 : List.filter (fun p => !p.eof)
        ((List.range (min stopAfter frames.length)).map
          (fun j => FramePacket.mk cam j (frames.getD j 0) false)) =
        (List.range (min stopAfter frames.length)).map
          (fun j => FramePacket.mk cam j (frames.getD j 0) false) := by
      refine List.filter_eq_self.2 ?_
      intro p hp
      rcases List.mem_map.1 hp with ⟨j, _, he⟩
      rw [← he]
      rfl
    have h2 : List.filter (fun p => !p.eof)
        [(⟨cam, min stopAfter frames.length, 0, true⟩ : FramePacket)] = [] := rfl
    rw [h, List.filter_append, h1, h2, List.append_nil, List.map_map]
    have h3 : ∀ j ∈ List.range (min stopAfter frames.length),
        ((fun p => p.frame_index) ∘
          (fun j => FramePacket.mk cam j (frames.getD j 0) false)) j = id j :=
      fun j _ => rfl
    rw [List.map_congr_left h3, List.map_id]

/-- C10 (confirmed): the straggler-discard branch never fires: over any
complete schedule the ghost counter instrumenting that branch is still 0
when the engine finishes. -/
theorem c10_no_straggler_discarded (streams : List VideoStream) (σ : List Nat)
    (hne : streams ≠ []) (hnd : (streams.map (fun st => st.cam_id)).Nodup)
    (hσ : CompleteSchedule (readerSeqs streams) σ) :
    (engineRun streams σ).discarded = 0 := by
  rw [engineRun_eq streams σ hne hnd hσ]
  rfl

/-- C10 witness: no packet is discarded in the `fixA` run. -/
theorem c10_witness :
    fixA ≠ [] ∧ (fixA.map (fun st => st.cam_id)).Nodup ∧
    CompleteSchedule (readerSeqs fixA) schedA ∧
    (engineRun fixA schedA).discarded = 0 :=
  ⟨by decide, by decide, by decide,
    c10_no_straggler_discarded fixA schedA (by decide) (by decide) (by decide)⟩

/-- C8 (confirmed): the `BlockingQueue` contract — `push` on a closed
channel is a no-op; `close` is idempotent; after closing, `pop` still
drains every item pushed before the close, in FIFO order, and returns an
absent result exactly when the channel is closed and empty; a `pop` on a
nonempty channel returns the oldest item. -/
theorem c8_blocking_queue_contract {α : Type} (q : BlockingQueue α)
    (v : α) (l : List α) :
    (q.closed = true → q.push v = q) ∧
    (q.close.close = q.close) ∧
    (BlockingQueue.popAll (BlockingQueue.pushAll ⟨[], false⟩ l).close = l) ∧
    (q.popStep = some (none, q) ↔ q.closed = true ∧ q.items = []) ∧
    (∀ w rest, q.items = w :: rest →
      q.popStep = some (some w, { q with items := rest })) := by
  refine ⟨?_, ?_, ?_, ?_, ?_⟩
  · intro h
    rw [BlockingQueue.push, if_pos h]
  · rfl
  · rw [pushAll_open, List.nil_append]
    exact popAll_spec l true
  · constructor
    · intro h
      rw [BlockingQueue.popStep] at h
      cases hit : q.items with
      | nil =>
        rw [hit] at h
        by_cases hc : q.closed = true
        · exact ⟨hc, rfl⟩
        · rw [if_neg hc] at h
          exact Option.noConfusion h
      | cons w rest =>
        rw [hit] at h
        simp at h
    · rintro ⟨hc, hit⟩
      rw [BlockingQueue.popStep, hit, if_pos hc]
  · intro w rest hit
    rw [BlockingQueue.popStep, hit]

/-- C8 witness: the contract at a concrete closed queue and item list. -/
theorem c8_witness :
    ((⟨[1, 2], true⟩ : BlockingQueue Nat).closed = true →
      (⟨[1, 2], true⟩ : BlockingQueue Nat).push 5 = ⟨[1, 2], true⟩) ∧
    BlockingQueue.popAll (BlockingQueue.pushAll ⟨[], false⟩ [3, 4]).close =
      [3, 4] :=
  ⟨(c8_blocking_queue_contract (⟨[1, 2], true⟩ : BlockingQueue Nat) 5 [3, 4]).1,
   (c8_blocking_queue_contract (⟨[1, 2], true⟩ : BlockingQueue Nat) 5 [3, 4]).2.2.1⟩

/-- C2 (confirmed): every batch the parallel engine emits carries exactly
the full set of discovered camera ids (as a permutation of the stream
list's ids, hence equal as a set when ids are distinct), and its index
lies strictly below every recorded end-of-stream index, so no camera had
reported EOF at or below it. -/
theorem c2_emitted_batch_invariant (streams : List VideoStream) (σ : List Nat)
    (hne : streams ≠ []) (hnd : (streams.map (fun st => st.cam_id)).Nodup)
    (hσ : CompleteSchedule (readerSeqs streams) σ) :
    ∀ b ∈ extract_frames_parallel streams σ,
      (b.frames.map Prod.fst).Perm (streams.map (fun st => st.cam_id)) ∧
      ∀ ce ∈ (engineRun streams σ).cam_eof_indices, b.frame_index < ce.2 := by
  intro b hb
  rw [extract_frames_parallel_eq streams σ hne hnd hσ, outputOf] at hb
  rcases List.mem_map.1 hb with ⟨k, hk, he⟩
  have hkM : k < minLenOf streams := List.mem_range.1 hk
  constructor
  · have hperm := (sortPairs_perm (streams.map
      (fun st => (st.cam_id, st.frames.getD k 0)))).map Prod.fst
    rw [← he]
    show ((fullRowOf streams k).map Prod.fst).Perm _
    rw [fullRowOf]
    refine hperm.trans ?_
    rw [List.map_map]
    exact List.Perm.refl _
  · intro ce hce
    rw [engineRun_eq streams σ hne hnd hσ] at hce
    have hce2 : ce ∈ eofList (streams.map (fun st => (st, st.frames.length + 1))) :=
      mem_sortPairs.1 hce
    rw [eofList_full] at hce2
    rcases List.mem_map.1 hce2 with ⟨st, hst, hest⟩
    have hMle : minLenOf streams ≤ st.frames.length :=
      minNat?_le (minLenOf_spec hne) _ (List.mem_map.2 ⟨st, hst, rfl⟩)
    have hce3 : ce.2 = st.frames.length := by rw [← hest]
    rw [← he]
    show k < ce.2
    omega

/-- C2 witness: the invariant at the `fixA` round-robin run. -/
theorem c2_witness :
    fixA ≠ [] ∧ (fixA.map (fun st => st.cam_id)).Nodup ∧
    CompleteSchedule (readerSeqs fixA) schedA ∧
    (∀ b ∈ extract_frames_parallel fixA schedA,
      (b.frames.map Prod.fst).Perm (fixA.map (fun st => st.cam_id)) ∧
      ∀ ce ∈ (engineRun fixA schedA).cam_eof_indices, b.frame_index < ce.2) :=
  ⟨by decide, by decide, by decide,
    c2_emitted_batch_invariant fixA schedA (by decide) (by decide) (by decide)⟩

/-- Two 2-frame streams used to exhibit the stop-flag behaviour. -/
def fixC3 : List VideoStream := [⟨0, 25, [1, 2]⟩, ⟨1, 25, [3, 4]⟩]

/-- The assembler state reached after camera 0 alone has delivered both
its frames and its terminal packet (schedule prefix `[0, 0, 0]`). -/
def stateC3 : AsmState :=
  (runLoop fixC3.length (referenceFps (fixC3.map (fun st => st.fps)))
    initState (runSchedule (readerSeqs fixC3) [0, 0, 0])).1

/-- C3 counterexample: a reachable assembler state (two cameras, camera 0
has reported end-of-stream, camera 1 has not) in which
`first_eof_frame_index` is recorded but the stop flag is still unset —
the code sets the flag only when `finished_cams == total_cams`, not on
the first observed EOF. -/
theorem c3_counterexample :
    stateC3.first_eof_frame_index = some 2 ∧
    stateC3.finished_cams = 1 ∧
    stateC3.stop_flag = false := by decide

/-- C3 (corrected): in every assembler state reachable by the main loop
— any schedule prefix `σ` — the stop flag is set if and only if every
camera has reported end-of-stream (`finished_cams = total_cams`), not
upon the first observed EOF. -/
theorem c3_stop_flag_on_last_eof (streams : List VideoStream) (σ : List Nat)
    (hne : streams ≠ []) (hnd : (streams.map (fun st => st.cam_id)).Nodup) :
    ((runLoop streams.length (referenceFps (streams.map (fun st => st.fps)))
        initState (runSchedule (readerSeqs streams) σ)).1.stop_flag = true ↔
      (runLoop streams.length (referenceFps (streams.map (fun st => st.fps)))
        initState (runSchedule (readerSeqs streams) σ)).1.finished_cams =
        streams.length) := by
  have hseqs : readerSeqs streams =
      (streams.map (fun st => (st, 0))).map remOf := by
    unfold readerSeqs remOf
    rw [List.map_map]
    refine List.map_congr_left ?_
    intro st _
    simp
  have hne0 : streams.map (fun st => ((st, 0) : VideoStream × Nat)) ≠ [] := by
    intro h
    exact hne (List.map_eq_nil_iff.1 h)
  have hbound0 : ∀ p ∈ streams.map (fun st => ((st, 0) : VideoStream × Nat)),
      p.2 ≤ p.1.frames.length + 1 := by
    intro p hp
    rcases List.mem_map.1 hp with ⟨st, _, he⟩
    rw [← he]
    simp
  have hnd0 : ((streams.map (fun st => ((st, 0) : VideoStream × Nat))).map
      (fun p => p.1.cam_id)).Nodup := by
    rw [List.map_map]
    simpa using hnd
  have h1 : runLoop streams.length
      (referenceFps (streams.map (fun st => st.fps))) initState
      (runSchedule (readerSeqs streams) σ) =
      (stateOf (referenceFps (streams.map (fun st => st.fps)))
        (csRun (streams.map (fun st => (st, 0))) σ), []) := by
    rw [hseqs, ← stateOf_init (referenceFps (streams.map (fun st => st.fps)))
      streams hne]
    rw [show streams.length =
      (streams.map (fun st => ((st, 0) : VideoStream × Nat))).length by simp]
    rw [runLoop_schedule _ σ _ hne0 hbound0 hnd0]
  rw [h1]
  have hlen : (csRun (streams.map (fun st => (st, 0))) σ).length =
      streams.length := by
    have h2 := congrArg List.length
      (csRun_map_fst σ (streams.map (fun st => (st, 0))))
    simpa using h2
  show (decide ((eofList (csRun (streams.map (fun st => (st, 0))) σ)).length =
      (csRun (streams.map (fun st => (st, 0))) σ).length) = true ↔
    (eofList (csRun (streams.map (fun st => (st, 0))) σ)).length =
      streams.length)
  rw [decide_eq_true_iff, hlen]

/-- C3 witness: the corrected equivalence at the `fixC3` prefix run. -/
theorem c3_witness :
    fixC3 ≠ [] ∧ (fixC3.map (fun st => st.cam_id)).Nodup ∧
    ((runLoop fixC3.length (referenceFps (fixC3.map (fun st => st.fps)))
        initState (runSchedule (readerSeqs fixC3) [0, 0, 0])).1.stop_flag = true ↔
      (runLoop fixC3.length (referenceFps (fixC3.map (fun st => st.fps)))
        initState (runSchedule (readerSeqs fixC3) [0, 0, 0])).1.finished_cams =
        fixC3.length) :=
  ⟨by decide, by decide,
    c3_stop_flag_on_last_eof fixC3 [0, 0, 0] (by decide) (by decide)⟩

/-- Directory entries for the failed-open scenario: camera 0's capture
does not open, camera 1 opens with three frames. -/
def fixC4 : List StreamEntry := [⟨0, false, 25, [1, 2, 3]⟩, ⟨1, true, 25, [4, 5, 6]⟩]

/-- C4 counterexample: with a failed-open camera 0 alongside a healthy
3-frame camera 1, the engine emits 3 batches — not the 0 batches the
zero-length-stream reading (`M = 0`) would force.  The failed camera is
absent from `collect_streams`' result, so it does not constrain `M`. -/
theorem c4_counterexample :
    CompleteSchedule (readerSeqs (collect_streams fixC4)) [0, 0, 0, 0] ∧
    collect_streams fixC4 = [⟨1, 25, [4, 5, 6]⟩] ∧
    (extract_frames_parallel (collect_streams fixC4) [0, 0, 0, 0]).length = 3 := by
  decide

theorem filter_opens_twice (entries : List StreamEntry) :
    (entries.filter (fun e => e.opens)).filter (fun e => e.opens) =
      entries.filter (fun e => e.opens) := by
  induction entries with
  | nil => rfl
  | cons e t ih =>
    by_cases h : e.opens = true
    · simp [List.filter_cons, h, ih]
    · simp [List.filter_cons, h, ih]

/-- C4 (corrected): a camera whose stream fails to open is skipped by
`collect_streams` — excluded from the discovered set — rather than
entering as a zero-length stream: the collected streams are exactly
those of the successfully opening entries, so the failed camera has no
effect on the output bound `M`; and when the failing entry is the only
candidate, no stream is collected and the engine emits nothing. -/
theorem c4_failed_open_skipped (entries : List StreamEntry) (e : StreamEntry)
    (he : e.opens = false) :
    collect_streams entries = collect_streams (entries.filter (fun x => x.opens)) ∧
    collect_streams [e] = [] ∧
    extract_frames_parallel (collect_streams [e]) [] = [] := by
  refine ⟨?_, ?_, ?_⟩
  · unfold collect_streams
    rw [filter_opens_twice]
  · unfold collect_streams
    rw [List.filter_cons, he]
    rfl
  · have h2 : collect_streams [e] = [] := by
      unfold collect_streams
      rw [List.filter_cons, he]
      rfl
    rw [h2]
    rfl

/-- C4 witness: the corrected statement at the `fixC4` entries. -/
theorem c4_witness :
    (⟨0, false, 25, [1, 2, 3]⟩ : StreamEntry).opens = false ∧
    collect_streams fixC4 = collect_streams (fixC4.filter (fun x => x.opens)) ∧
    collect_streams [(⟨0, false, 25, [1, 2, 3]⟩ : StreamEntry)] = [] ∧
    extract_frames_parallel
      (collect_streams [(⟨0, false, 25, [1, 2, 3]⟩ : StreamEntry)]) [] = [] := by
  refine ⟨by decide, ?_⟩
  exact c4_failed_open_skipped fixC4 ⟨0, false, 25, [1, 2, 3]⟩ (by decide)

/-- Streams exhibiting the timestamp divergence: the first stream has a
non-positive fps, a later one a positive fps. -/
def fixC5 : List VideoStream := [⟨0, 0, [5, 6]⟩, ⟨1, 25, [7, 8]⟩]

/-- A complete schedule for `fixC5`. -/
def schedC5 : List Nat := [0, 0, 0, 1, 1, 1]

/-- C5 counterexample: on `fixC5` the single-threaded extractor derives
timestamps from the FIRST stream's fps (`streams.front().fps = 0`, so
every timestamp is 0), while the parallel engine uses the first POSITIVE
fps (25), so the two batch sequences differ — the equivalence fails on
timestamps even though indices and frames agree. -/
theorem c5_counterexample :
    CompleteSchedule (readerSeqs fixC5) schedC5 ∧
    (extract_frames_single fixC5).map (fun b => b.frame_index) =
      (extract_frames_parallel fixC5 schedC5).map (fun b => b.frame_index) ∧
    extract_frames_single fixC5 ≠ extract_frames_parallel fixC5 schedC5 := by
  refine ⟨by decide, by decide, ?_⟩
  intro hEq
  have hfix : fixC5 = (⟨0, 0, [5, 6]⟩ : VideoStream) :: [⟨1, 25, [7, 8]⟩] := rfl
  rw [hfix, extract_frames_single_eq,
    extract_frames_parallel_eq _ schedC5 (by simp) (by decide) (by decide),
    outputOf] at hEq
  have hM : minLenOf ((⟨0, 0, [5, 6]⟩ : VideoStream) :: [⟨1, 25, [7, 8]⟩]) = 2 := by
    decide
  rw [hM] at hEq
  have h1 := congrArg (fun l => (l.getD 1 ⟨0, 0, []⟩).timestamp) hEq
  simp only [List.range_succ, List.range_zero, List.nil_append, List.cons_append,
    List.map_cons, List.map_nil, List.getD_cons_succ, List.getD_cons_zero] at h1
  norm_num [tsOf, referenceFps] at h1

/-- C5 (corrected): the parallel engine's batch sequence equals the
lock-step single-threaded extractor's — indices, frames and timestamps —
provided the two timestamp bases agree: either the first stream's fps is
positive (then it is also the engine's reference fps), or no stream has
a positive fps (then both sides stamp 0).  Without that proviso the
timestamps can differ (see the counterexample). -/
theorem c5_single_parallel_agree (st0 : VideoStream) (rest : List VideoStream)
    (σ : List Nat)
    (hnd : ((st0 :: rest).map (fun st => st.cam_id)).Nodup)
    (hσ : CompleteSchedule (readerSeqs (st0 :: rest)) σ)
    (hfps : 0 < st0.fps ∨ ∀ f ∈ (st0 :: rest).map (fun st => st.fps), f ≤ 0) :
    extract_frames_single (st0 :: rest) =
      extract_frames_parallel (st0 :: rest) σ := by
  rw [extract_frames_single_eq,
    extract_frames_parallel_eq (st0 :: rest) σ (by simp) hnd hσ, outputOf]
  refine List.map_congr_left ?_
  intro k _
  have hts : tsOf st0.fps k =
      tsOf (referenceFps ((st0 :: rest).map (fun st => st.fps))) k := by
    rcases hfps with hp | hnp
    · rw [show referenceFps ((st0 :: rest).map (fun st => st.fps)) = st0.fps from by
        rw [List.map_cons, referenceFps, if_pos hp]]
    · rw [referenceFps_eq_zero _ (fun f hf => not_lt.mpr (hnp f hf))]
      have h0 : ¬ 0 < st0.fps := not_lt.mpr (hnp st0.fps (by simp))
      rw [tsOf, tsOf, if_neg h0, if_neg (lt_irrefl 0)]
  rw [hts]

/-- C5 witness: on `fixA` (front fps 25 > 0) single and parallel agree. -/
theorem c5_witness :
    (fixA.map (fun st => st.cam_id)).Nodup ∧
    CompleteSchedule (readerSeqs fixA) schedA ∧
    (0 < (25 : ℚ)) ∧
    extract_frames_single fixA = extract_frames_parallel fixA schedA :=
  ⟨by decide, by decide, by decide,
    c5_single_parallel_agree ⟨0, 25, [10, 11, 12, 13, 14]⟩ [⟨1, 25, [20, 21, 22]⟩]
      schedA (by decide) (by decide) (Or.inl (by decide))⟩

/-- Scenario B streams: three cameras of 10 frames each, fps 25, 0, 0. -/
def fixB : List VideoStream :=
  [⟨0, 25, List.range 10⟩, ⟨1, 0, List.range 10⟩, ⟨2, 0, List.range 10⟩]

/-- A sequential complete schedule for `fixB` (11 packets per reader). -/
def schedB : List Nat :=
  List.replicate 11 0 ++ List.replicate 11 1 ++ List.replicate 11 2

/-- C9 (confirmed): either some stream has a positive fps — then the
engine's reference fps is positive, occurs among the streams' fps
values, and every emitted batch's timestamp is its index divided by that
reference fps — or no stream has a positive fps and every emitted
batch's timestamp is 0. -/
theorem c9_batch_timestamps (streams : List VideoStream) (σ : List Nat)
    (hne : streams ≠ []) (hnd : (streams.map (fun st => st.cam_id)).Nodup)
    (hσ : CompleteSchedule (readerSeqs streams) σ) :
    (0 < referenceFps (streams.map (fun st => st.fps)) ∧
      referenceFps (streams.map (fun st => st.fps)) ∈
        streams.map (fun st => st.fps) ∧
      ∀ b ∈ extract_frames_parallel streams σ,
        b.timestamp =
          (b.frame_index : ℚ) / referenceFps (streams.map (fun st => st.fps))) ∨
    ((∀ f ∈ streams.map (fun st => st.fps), ¬ 0 < f) ∧
      ∀ b ∈ extract_frames_parallel streams σ, b.timestamp = 0) := by
  by_cases hpos : ∃ f ∈ streams.map (fun st => st.fps), 0 < f
  · rcases referenceFps_mem_pos _ hpos with ⟨hmem, hrpos⟩
    refine Or.inl ⟨hrpos, hmem, ?_⟩
    intro b hb
    rw [extract_frames_parallel_eq streams σ hne hnd hσ, outputOf] at hb
    rcases List.mem_map.1 hb with ⟨k, _, he⟩
    rw [← he]
    show tsOf (referenceFps (streams.map (fun st => st.fps))) k = _
    rw [tsOf, if_pos hrpos]
  · push_neg at hpos
    have hz : referenceFps (streams.map (fun st => st.fps)) = 0 :=
      referenceFps_eq_zero _ (fun f hf => not_lt.mpr (hpos f hf))
    refine Or.inr ⟨fun f hf => not_lt.mpr (hpos f hf), ?_⟩
    intro b hb
    rw [extract_frames_parallel_eq streams σ hne hnd hσ, outputOf] at hb
    rcases List.mem_map.1 hb with ⟨k, _, he⟩
    rw [← he]
    show tsOf (referenceFps (streams.map (fun st => st.fps))) k = 0
    rw [hz, tsOf, if_neg (lt_irrefl 0)]

/-- C9 witness: Scenario B — 3 cameras with 10 frames each, fps 25, 0, 0:
the reference fps is 25 and every batch timestamp is `index / 25`. -/
theorem c9_witness :
    fixB ≠ [] ∧ (fixB.map (fun st => st.cam_id)).Nodup ∧
    CompleteSchedule (readerSeqs fixB) schedB ∧
    referenceFps (fixB.map (fun st => st.fps)) = 25 ∧
    ((0 < referenceFps (fixB.map (fun st => st.fps)) ∧
      referenceFps (fixB.map (fun st => st.fps)) ∈
        fixB.map (fun st => st.fps) ∧
      ∀ b ∈ extract_frames_parallel fixB schedB,
        b.timestamp =
          (b.frame_index : ℚ) / referenceFps (fixB.map (fun st => st.fps))) ∨
    ((∀ f ∈ fixB.map (fun st => st.fps), ¬ 0 < f) ∧
      ∀ b ∈ extract_frames_parallel fixB schedB, b.timestamp = 0)) :=
  ⟨by decide, by decide, by decide, by decide,
    c9_batch_timestamps fixB schedB (by decide) (by decide) (by decide)⟩
